import Mathlib

/-!
Verification of the MessagePack decoder in umsgpack/mp_load.py
(micropython-msgpack).

The decoder is shallowly embedded over byte lists: a byte is a value of
Fin 256, the byte source of the top-level entry point (a BytesIO over the
packed buffer) is the list of bytes not yet consumed, and every decode
routine maps the remaining bytes to either an error or a decoded value
paired with the bytes left over.  Python exceptions raised by the module
are the constructors of Err.  Recursion in the source (nested arrays and
maps) is bounded here by an explicit fuel parameter; fuel exhaustion is a
distinct outcome (Err.OutOfFuel) and theorems show any fuel of at least
the buffer length plus one is never exhausted, which is how the fuel-free
source behaves.
-/

namespace UMsgpack

/-- A single byte of the packed stream. -/
abbrev Byte := Fin 256

/-- Terminal outcomes of the module: InsufficientDataException,
ReservedCodeException, InvalidStringException, UnhashableKeyException,
DuplicateKeyException, NotImplementedError, the generic Exception raised
by the internal helper for impossible states (line 19, def of the helper
that raises a logic error), and the artificial fuel-exhaustion marker of
the embedding. -/
inductive Err where
  | InsufficientData
  | ReservedCode
  | InvalidString
  | UnhashableKey
  | DuplicateKey
  | NotImplemented
  | LogicError
  | OutOfFuel
deriving DecidableEq, Repr

/-- Decoded Python values.  Python str is a list of Unicode code points,
bytes is a list of raw bytes, floats keep their raw big-endian IEEE-754
payload (4 or 8 bytes) - the exact numeric value struct.unpack builds
from the payload is recovered by fl32/fl64 below wherever Python
compares floats - list and tuple are separate constructors because only
tuples may serve as map keys, and a decoded dict is its
insertion-ordered key/value pairs (this covers both dict and
collections.OrderedDict, which differ only in the Python class used).
An Ext instance left opaque decodes to the ext constructor. -/
inductive Value where
  | nil
  | bool (b : Bool)
  | int (i : Int)
  | f32 (bs : List Byte)
  | f64 (bs : List Byte)
  | str (cps : List Nat)
  | bin (bs : List Byte)
  | list (vs : List Value)
  | tuple (vs : List Value)
  | map (ps : List (Value × Value))
  | ext (t : Int) (d : List Byte)
deriving Repr

/-- The Ext object built at line 121 of mp_load.py: a signed 8-bit type
identifier paired with the payload bytes.  Modelled from the spec: the
Ext class itself lives outside src/ (package init), the spec describes it
as exactly this pair. -/
structure ExtObj where
  type : Int
  data : List Byte

/-- Modelled from the spec: an entry of the process-wide registry
ext_type_to_class (defined outside src/).  The registered class may or
may not provide the unpackb decode capability; invoking a missing one is
what the AttributeError branch of the source detects. -/
structure ExtClass where
  unpackb? : Option (List Byte → Value)

/-- Modelled from the spec: the process-wide registry ext_type_to_class,
a mapping from signed type identifier to registered class.  It is
read-only during a decode, so it is threaded as a parameter. -/
def Registry : Type := Int → Option ExtClass

/-- The options dict threaded through every call: the flags read by
mp_load.py via options.get, plus the optional per-call ext handler table
(a dict from type identifier to a callback receiving the Ext object).
An absent handler table and an empty one behave identically in the
source (both are falsy), so both are the empty list here. -/
structure Options where
  use_tuple : Bool := false
  use_ordered_dict : Bool := false
  allow_invalid_utf8 : Bool := false
  ext_handlers : List (Int × (ExtObj → Value)) := []

/-- The reader _read_except specialised to the BytesIO source created by
loads: a read of n bytes returns min(n, remaining) bytes, so the
accumulation loop of _read_except terminates after at most one extra
read, and the net effect on the remaining-bytes list is: n = 0 returns
nothing, otherwise the first n bytes are returned when available and
InsufficientDataException is raised when not.  The general
chunk-delivering source appears further below as read_except, with a
lemma connecting the two. -/
def readF (n : Nat) (fp : List Byte) : Except Err (List Byte × List Byte) :=
  if n = 0 then .ok ([], fp)
  else if n ≤ fp.length then .ok (fp.take n, fp.drop n)
  else .error .InsufficientData

/-- _read_except(fp, 1) followed by ord: one byte from the stream. -/
def readByte (fp : List Byte) : Except Err (Byte × List Byte) :=
  match fp with
  | [] => .error .InsufficientData
  | b :: r => .ok (b, r)

/-- Big-endian unsigned value of a byte string, the semantics of
struct.unpack with formats B, >H, >I, >Q. -/
def beU (bs : List Byte) : Nat :=
  bs.foldl (fun a b => a * 256 + b.val) 0

/-- Big-endian signed (two-complement) value of a byte string, the
semantics of struct.unpack with formats b, >h, >i, >q. -/
def beS (bs : List Byte) : Int :=
  if 2 ^ (8 * bs.length - 1) ≤ beU bs then (beU bs : Int) - 2 ^ (8 * bs.length)
  else (beU bs : Int)

/-- The helper _re0 for the unsigned formats: read n bytes and return
their big-endian unsigned value. -/
def readBE (n : Nat) (fp : List Byte) : Except Err (Nat × List Byte) :=
  (readF n fp).map (fun p => (beU p.1, p.2))

/-- struct.unpack("b", code): the code byte as a signed 8-bit value. -/
def sbyte (b : Byte) : Int :=
  if 0x80 ≤ b.val then (b.val : Int) - 256 else (b.val : Int)

/-- The eight fixed-width integer formats of the slice table
"B >H>I>Qb >h>i>q" in _unpack_integer: entry ic of intFmtTable below is
the stripped two-character slice at offset 2*ic. -/
inductive IntFmt where
  | u8 | u16 | u32 | u64 | i8 | i16 | i32 | i64
deriving DecidableEq, Repr

/-- IntFmt.signed is true for the lower-case struct formats. -/
def IntFmt.signed : IntFmt → Bool
  | .i8 | .i16 | .i32 | .i64 => true
  | _ => false

/-- The slice table of _unpack_integer as a list: entry ic is the format
selected for code byte 0xcc + ic. -/
def intFmtTable : List IntFmt :=
  [.u8, .u16, .u32, .u64, .i8, .i16, .i32, .i64]

/-- _unpack_integer.  A code with the top three bits set is a negative
fixint unpacked as a signed byte; a code with the top bit clear is a
positive fixint unpacked as an unsigned byte; otherwise the slice table
indexed by code - 0xcc picks the struct format and 1 << ((code - 0xcc)
and 3) bytes are read.  For a code below 0xcc or past the table the
Python source would crash in struct.unpack (empty or bogus format); that
impossible state is LogicError here and is proved unreachable from the
dispatcher. -/
def unpack_integer (code : Byte) (fp : List Byte) : Except Err (Value × List Byte) :=
  if code.val &&& 0xe0 = 0xe0 then .ok (.int (sbyte code), fp)
  else if code.val &&& 0x80 = 0 then .ok (.int (code.val : Int), fp)
  else if 0xcc ≤ code.val ∧ code.val ≤ 0xd3 then do
    let (bs, fp) ← readF (1 <<< ((code.val - 0xcc) &&& 3)) fp
    .ok (.int (if (intFmtTable.getD (code.val - 0xcc) .u8).signed then beS bs
      else (beU bs : Int)), fp)
  else .error .LogicError

/-- _unpack_float: 0xca reads a 4-byte and 0xcb an 8-byte big-endian
IEEE-754 payload; any other code is the impossible-state branch. -/
def unpack_float (code : Byte) (fp : List Byte) : Except Err (Value × List Byte) :=
  if code.val = 0xca then do
    let (bs, fp) ← readF 4 fp
    .ok (.f32 bs, fp)
  else if code.val = 0xcb then do
    let (bs, fp) ← readF 8 fp
    .ok (.f64 bs, fp)
  else .error .LogicError

/-- The value of an IEEE-754 float, exactly.  A finite number is carried
as the integer z such that the value is z * 2 ^ (-1074): every finite
binary32 or binary64 value is an integer multiple of 2 ^ (-1074) (the
least positive binary64 subnormal), so two encodings denote the same
real number exactly when their z agree - in particular a binary32 and a
binary64 encoding of one number, and positive and negative zero (both
z = 0).  Infinities carry their sign; every NaN payload collapses to the
one nan marker, which no equality below ever accepts. -/
inductive FloatVal where
  | finite (z : Int)
  | inf (neg : Bool)
  | nan
deriving DecidableEq, Repr

/-- Exact value of the 4-byte big-endian binary32 payload read by
struct.unpack of a >f field: sign bit 31, 8 exponent bits, 23 fraction
bits; exponent 0xff is an infinity or NaN, exponent 0 a subnormal
frac * 2 ^ (-149) = (frac * 2 ^ 925) * 2 ^ (-1074), and otherwise
(2 ^ 23 + frac) * 2 ^ (e - 150) = ((2 ^ 23 + frac) * 2 ^ (e + 924)) *
2 ^ (-1074).  struct.unpack widens the binary32 value to a Python float
(binary64) exactly, so the value on the 2 ^ (-1074) grid is the decoded
Python float.  Only 4-byte payloads reach this function. -/
def fl32 (bs : List Byte) : FloatVal :=
  let u := beU bs
  let sign := u / 2 ^ 31 % 2
  let e := u / 2 ^ 23 % 2 ^ 8
  let frac := u % 2 ^ 23
  if e = 0xff then
    if frac = 0 then .inf (sign = 1) else .nan
  else
    let mag : Nat := if e = 0 then frac * 2 ^ 925 else (2 ^ 23 + frac) * 2 ^ (e + 924)
    .finite (if sign = 1 then -(mag : Int) else (mag : Int))

/-- Exact value of the 8-byte big-endian binary64 payload read by
struct.unpack of a >d field: sign bit 63, 11 exponent bits, 52 fraction
bits; exponent 0x7ff is an infinity or NaN, exponent 0 a subnormal
frac * 2 ^ (-1074), and otherwise (2 ^ 52 + frac) * 2 ^ (e - 1075) =
((2 ^ 52 + frac) * 2 ^ (e - 1)) * 2 ^ (-1074).  Only 8-byte payloads
reach this function. -/
def fl64 (bs : List Byte) : FloatVal :=
  let u := beU bs
  let sign := u / 2 ^ 63 % 2
  let e := u / 2 ^ 52 % 2 ^ 11
  let frac := u % 2 ^ 52
  if e = 0x7ff then
    if frac = 0 then .inf (sign = 1) else .nan
  else
    let mag : Nat := if e = 0 then frac else (2 ^ 52 + frac) * 2 ^ (e - 1)
    .finite (if sign = 1 then -(mag : Int) else (mag : Int))

/-- Python == on two decoded floats: finite values compare exactly (so
0.0 == -0.0, and a float32 and a float64 decoding of one number are
equal), infinities compare by sign, and a NaN compares unequal to
everything, itself included - faithful because every decoded float is a
fresh object built by struct.unpack, so the identity shortcut CPython
takes before calling == never applies to two decoded keys. -/
def floatEq : FloatVal → FloatVal → Bool
  | .finite a, .finite b => a == b
  | .inf s, .inf t => s == t
  | _, _ => false

/-- Python == between a decoded float and an int (a bool is passed as 0
or 1): CPython compares the exact values, without rounding the int to a
float, and an infinity or NaN equals no int. -/
def floatIntEq : FloatVal → Int → Bool
  | .finite z, i => z == i * ((2 ^ 1074 : Nat) : Int)
  | _, _ => false

/-- True for a UTF-8 continuation byte (0x80-0xbf). -/
def isCont (b : Byte) : Bool :=
  0x80 ≤ b.val && b.val ≤ 0xbf

/-- Strict UTF-8 decoding of a byte string into code points, the
semantics of str(data, "utf-8") under CPython rules: overlong forms,
surrogate code points and values beyond 0x10ffff are rejected.  The
first continuation byte has a restricted range after leads 0xe0, 0xed,
0xf0 and 0xf4, which is exactly the overlong/surrogate/range exclusion. -/
def utf8Decode : List Byte → Option (List Nat)
  | [] => some []
  | b :: bs =>
    if b.val ≤ 0x7f then (utf8Decode bs).map (fun t => b.val :: t)
    else if b.val < 0xc2 then none
    else if b.val ≤ 0xdf then
      match bs with
      | b1 :: bs1 =>
        if isCont b1 then
          (utf8Decode bs1).map (fun t => ((b.val - 0xc0) * 0x40 + (b1.val - 0x80)) :: t)
        else none
      | [] => none
    else if b.val ≤ 0xef then
      match bs with
      | b1 :: b2 :: bs2 =>
        let lo1 := if b.val = 0xe0 then 0xa0 else 0x80
        let hi1 := if b.val = 0xed then 0x9f else 0xbf
        if lo1 ≤ b1.val && b1.val ≤ hi1 && isCont b2 then
          (utf8Decode bs2).map
            (fun t => ((b.val - 0xe0) * 0x1000 + (b1.val - 0x80) * 0x40 + (b2.val - 0x80)) :: t)
        else none
      | _ => none
    else if b.val ≤ 0xf4 then
      match bs with
      | b1 :: b2 :: b3 :: bs3 =>
        let lo1 := if b.val = 0xf0 then 0x90 else 0x80
        let hi1 := if b.val = 0xf4 then 0x8f else 0xbf
        if lo1 ≤ b1.val && b1.val ≤ hi1 && isCont b2 && isCont b3 then
          (utf8Decode bs3).map
            (fun t => ((b.val - 0xf0) * 0x40000 + (b1.val - 0x80) * 0x1000
              + (b2.val - 0x80) * 0x40 + (b3.val - 0x80)) :: t)
        else none
      | _ => none
    else none

/-- The length computation of _unpack_string (lines 68-78): a code with
top three bits 101 is a fixstr whose length is its low five bits (code
and the complement of 0xe0, which for a byte equals code and 0x1f);
0xd9, 0xda, 0xdb carry a 1/2/4-byte big-endian length field; anything
else is the impossible-state branch. -/
def strLen (code : Byte) (fp : List Byte) : Except Err (Nat × List Byte) :=
  if code.val &&& 0xe0 = 0xa0 then .ok (code.val &&& 0x1f, fp)
  else if code.val = 0xd9 then readBE 1 fp
  else if code.val = 0xda then readBE 2 fp
  else if code.val = 0xdb then readBE 4 fp
  else .error .LogicError

/-- _unpack_string.  After reading exactly length payload bytes, the
payload is decoded as UTF-8; on failure the raw bytes are returned when
allow_invalid_utf8 is set and InvalidStringException is raised
otherwise.  The options argument sits before the stream so the routine
curries over the remaining bytes. -/
def unpack_string (code : Byte) (opt : Options) (fp : List Byte) :
    Except Err (Value × List Byte) := do
  let (length, fp) ← strLen code fp
  let (data, fp) ← readF length fp
  match utf8Decode data with
  | some s => .ok (.str s, fp)
  | none =>
    if opt.allow_invalid_utf8 then .ok (.bin data, fp)
    else .error .InvalidString

/-- The length computation of _unpack_binary: 0xc4, 0xc5, 0xc6 carry a
1/2/4-byte big-endian length field; anything else is the
impossible-state branch. -/
def binLen (code : Byte) (fp : List Byte) : Except Err (Nat × List Byte) :=
  if code.val = 0xc4 then readBE 1 fp
  else if code.val = 0xc5 then readBE 2 fp
  else if code.val = 0xc6 then readBE 4 fp
  else .error .LogicError

/-- _unpack_binary: read the declared number of payload bytes and
return them as raw bytes. -/
def unpack_binary (code : Byte) (fp : List Byte) : Except Err (Value × List Byte) := do
  let (length, fp) ← binLen code fp
  let (data, fp) ← readF length fp
  .ok (.bin data, fp)

/-- Lines 123-134 of _unpack_ext: resolve a freshly built Ext object.
First the per-call handler table of the options (a falsy or missing
table never matches), then the process-wide registry, whose entry
without unpackb raises NotImplementedError via the AttributeError
branch, and finally the raw Ext object itself. -/
def resolveExt (reg : Registry) (opt : Options) (e : ExtObj) : Except Err Value :=
  match opt.ext_handlers.lookup e.type with
  | some h => .ok (h e)
  | none =>
    match reg e.type with
    | some cls =>
      match cls.unpackb? with
      | some f => .ok (f e.data)
      | none => .error .NotImplemented
    | none => .ok (.ext e.type e.data)

/-- The fixed payload length of the five dedicated ext codes: position
of the code in the byte string searched at line 105, as a power of two
(length = 1 << n when the code is found at index n, and the sentinel 0
from find giving -1 means a length field follows). -/
def extFixedLen (code : Byte) : Option Nat :=
  match code.val with
  | 0xd4 => some 1
  | 0xd5 => some 2
  | 0xd6 => some 4
  | 0xd7 => some 8
  | 0xd8 => some 16
  | _ => none

/-- The payload length computation of _unpack_ext (lines 104-115): a
dedicated code fixes the length, 0xc7, 0xc8, 0xc9 carry a 1/2/4-byte
big-endian length field, and anything else is the impossible-state
branch. -/
def extLen (code : Byte) (fp : List Byte) : Except Err (Nat × List Byte) :=
  match extFixedLen code with
  | some n => .ok (n, fp)
  | none =>
    if code.val = 0xc7 then readBE 1 fp
    else if code.val = 0xc8 then readBE 2 fp
    else if code.val = 0xc9 then readBE 4 fp
    else .error .LogicError

/-- _unpack_ext.  Read the payload length, one signed type byte and the
payload, build the Ext object and resolve it per resolveExt. -/
def unpack_ext (reg : Registry) (code : Byte) (opt : Options) (fp : List Byte) :
    Except Err (Value × List Byte) := do
  let (length, fp) ← extLen code fp
  let (tb, fp) ← readByte fp
  let (extData, fp) ← readF length fp
  match resolveExt reg opt ⟨sbyte tb, extData⟩ with
  | .ok v => .ok (v, fp)
  | .error err => .error err

/-- isinstance(obj, list). -/
def Value.isList : Value → Bool
  | .list _ => true
  | _ => false

mutual

/-- _deep_list_to_tuple: recursively turn a list into a tuple.  Only
list nodes are rewritten; tuples, dicts and scalars are returned
unchanged (so a tuple that contains a list keeps it). -/
def deepListToTuple : Value → Value
  | .list vs => .tuple (deepListToTupleL vs)
  | v => v

/-- Elementwise companion of deepListToTuple. -/
def deepListToTupleL : List Value → List Value
  | [] => []
  | v :: vs => deepListToTuple v :: deepListToTupleL vs

end

mutual

/-- Whether hash(v) succeeds in Python: lists and dicts are unhashable,
a tuple is hashable exactly when all of its elements are, and every
other decoded value (nil, bool, int, float, str, bytes, Ext) is
hashable. -/
def hashable : Value → Bool
  | .list _ => false
  | .map _ => false
  | .tuple vs => hashableL vs
  | _ => true

/-- Elementwise companion of hashable. -/
def hashableL : List Value → Bool
  | [] => true
  | v :: vs => hashable v && hashableL vs

end

mutual

/-- Python equality of decoded values as used by the key-membership
test.  bool, int and float are one numeric family (Python bool is a
subclass of int): True == 1 == 1.0, False == 0 == 0.0 == -0.0, a
float32 and a float64 encoding of one number are equal, a NaN equals
nothing (decoded floats are fresh objects, so the identity shortcut of
the in operator never applies).  Lists and tuples never compare equal
to each other; two dicts compare by their ordered pair lists, adequate
here because dicts are unhashable so never reach this comparison as
keys. -/
def pyEq : Value → Value → Bool
  | .nil, .nil => true
  | .bool a, .bool b => a == b
  | .bool a, .int j => (if a then (1 : Int) else 0) == j
  | .int i, .bool b => i == (if b then (1 : Int) else 0)
  | .int i, .int j => i == j
  | .f32 a, .f32 b => floatEq (fl32 a) (fl32 b)
  | .f32 a, .f64 b => floatEq (fl32 a) (fl64 b)
  | .f64 a, .f32 b => floatEq (fl64 a) (fl32 b)
  | .f64 a, .f64 b => floatEq (fl64 a) (fl64 b)
  | .f32 a, .int i => floatIntEq (fl32 a) i
  | .int i, .f32 a => floatIntEq (fl32 a) i
  | .f64 a, .int i => floatIntEq (fl64 a) i
  | .int i, .f64 a => floatIntEq (fl64 a) i
  | .f32 a, .bool b => floatIntEq (fl32 a) (if b then 1 else 0)
  | .bool b, .f32 a => floatIntEq (fl32 a) (if b then 1 else 0)
  | .f64 a, .bool b => floatIntEq (fl64 a) (if b then 1 else 0)
  | .bool b, .f64 a => floatIntEq (fl64 a) (if b then 1 else 0)
  | .str a, .str b => a == b
  | .bin a, .bin b => a == b
  | .list xs, .list ys => pyEqL xs ys
  | .tuple xs, .tuple ys => pyEqL xs ys
  | .map xs, .map ys => pyEqP xs ys
  | .ext t d, .ext u e => t == u && d == e
  | _, _ => false

/-- Elementwise companion of pyEq. -/
def pyEqL : List Value → List Value → Bool
  | [], [] => true
  | x :: xs, y :: ys => pyEq x y && pyEqL xs ys
  | _, _ => false

/-- Pairwise companion of pyEq. -/
def pyEqP : List (Value × Value) → List (Value × Value) → Bool
  | [], [] => true
  | (k, v) :: xs, (l, w) :: ys => pyEq k l && pyEq v w && pyEqP xs ys
  | _, _ => false

end

/-- The membership test k in d on the dict under construction. -/
def containsK (d : List (Value × Value)) (k : Value) : Bool :=
  d.any (fun p => pyEq k p.1)

/-- Lines 173-175 of _unpack_map: a decoded key that is a list is
converted to its deep tuple form before any hash or membership test;
every other key is used as decoded. -/
def normKey (k0 : Value) : Value :=
  if k0.isList then deepListToTuple k0 else k0

/-- The element loop of _unpack_array: decode n values in order with the
given one-value decoder, threading the remaining bytes. -/
def seqDecode (dec : List Byte → Except Err (Value × List Byte)) :
    Nat → List Byte → Except Err (List Value × List Byte)
  | 0, fp => .ok ([], fp)
  | n + 1, fp => do
    let (v, fp) ← dec fp
    let (vs, fp) ← seqDecode dec n fp
    .ok (v :: vs, fp)

/-- The pair loop of _unpack_map: for each of n entries decode a key,
normalise a list key to its deep tuple form, raise
UnhashableKeyException when hash(k) fails, DuplicateKeyException when
the key is already present, then decode the value and insert.  The
final branch mirrors the try/except TypeError around the insertion,
which also reports UnhashableKeyException. -/
def mapDecode (dec : List Byte → Except Err (Value × List Byte)) :
    Nat → List (Value × Value) → List Byte →
    Except Err (List (Value × Value) × List Byte)
  | 0, d, fp => .ok (d, fp)
  | n + 1, d, fp => do
    let (k0, fp) ← dec fp
    if hashable (normKey k0) then
      if containsK d (normKey k0) then .error .DuplicateKey
      else do
        let (v, fp) ← dec fp
        if hashable (normKey k0) then mapDecode dec n (d ++ [(normKey k0, v)]) fp
        else .error .UnhashableKey
    else .error .UnhashableKey

/-- The length computation of _unpack_array: a code with top nibble 0x9
is a fixarray whose length is its low nibble (code and the complement
of 0xf0, for a byte equal to code and 0x0f); 0xdc and 0xdd carry a
2/4-byte big-endian length field; anything else is the impossible-state
branch. -/
def arrLen (code : Byte) (fp : List Byte) : Except Err (Nat × List Byte) :=
  if code.val &&& 0xf0 = 0x90 then .ok (code.val &&& 0x0f, fp)
  else if code.val = 0xdc then readBE 2 fp
  else if code.val = 0xdd then readBE 4 fp
  else .error .LogicError

/-- _unpack_array: decode the declared number of elements in order; they
materialise as a tuple when use_tuple is set and as a list otherwise. -/
def unpack_array (dec : List Byte → Except Err (Value × List Byte))
    (code : Byte) (opt : Options) (fp : List Byte) :
    Except Err (Value × List Byte) := do
  let (length, fp) ← arrLen code fp
  let (vs, fp) ← seqDecode dec length fp
  .ok (if opt.use_tuple then .tuple vs else .list vs, fp)

/-- The size computation of _unpack_map: a code with top nibble 0x8 is
a fixmap whose size is its low nibble; 0xde and 0xdf carry a 2/4-byte
big-endian length field; anything else is the impossible-state
branch. -/
def mapLen (code : Byte) (fp : List Byte) : Except Err (Nat × List Byte) :=
  if code.val &&& 0xf0 = 0x80 then .ok (code.val &&& 0x0f, fp)
  else if code.val = 0xde then readBE 2 fp
  else if code.val = 0xdf then readBE 4 fp
  else .error .LogicError

/-- _unpack_map: decode the declared number of key/value pairs starting
from the empty dict.  use_ordered_dict only selects the Python dict
class; both classes are the insertion-ordered pair list here. -/
def unpack_map (dec : List Byte → Except Err (Value × List Byte))
    (code : Byte) (_opt : Options) (fp : List Byte) :
    Except Err (Value × List Byte) := do
  let (length, fp) ← mapLen code fp
  let (d, fp) ← mapDecode dec length [] fp
  .ok (.map d, fp)

/-- The routes a tag byte can take in load (lines 196-223): one decode
routine, the single-byte constants indexed into the tuple
(None, 0, False, True) at line 211, or the reserved-code error. -/
inductive Route where
  | integer
  | float
  | string
  | binary
  | array
  | mp
  | ext
  | reserved
  | direct (i : Nat)
deriving DecidableEq, Repr

/-- The tuple (None, 0, False, True) of line 211. -/
def constTuple : List Value :=
  [.nil, .int 0, .bool false, .bool true]

/-- The comparison chain of load, lines 199-223, as a classification of
the tag byte value. -/
def dispatch (ic : Nat) : Route :=
  if ic ≤ 0x7f ∨ (0xcc ≤ ic ∧ ic ≤ 0xd3) ∨ (0xe0 ≤ ic ∧ ic ≤ 0xff) then .integer
  else if ic ≤ 0xc9 then
    if ic ≤ 0xc3 then
      if ic ≤ 0x8f then .mp
      else if ic ≤ 0x9f then .array
      else if ic ≤ 0xbf then .string
      else if ic = 0xc1 then .reserved
      else .direct (ic - 0xc0)
    else if ic ≤ 0xc6 then .binary
    else .ext
  else if ic ≤ 0xcb then .float
  else if ic ≤ 0xd8 then .ext
  else if ic ≤ 0xdb then .string
  else if ic ≤ 0xdd then .array
  else .mp

/-- load: read one tag byte and hand the stream to the routine selected
by the comparison chain.  Nested values recurse with one unit less
fuel; the source recursion is unbounded, and the fuel theorems below
show any fuel beyond the buffer length behaves identically. -/
def load (reg : Registry) : Nat → Options → List Byte → Except Err (Value × List Byte)
  | 0, _, _ => .error .OutOfFuel
  | f + 1, opt, fp => do
    let (code, fp) ← readByte fp
    match dispatch code.val with
    | .integer => unpack_integer code fp
    | .float => unpack_float code fp
    | .string => unpack_string code opt fp
    | .binary => unpack_binary code fp
    | .ext => unpack_ext reg code opt fp
    | .array => unpack_array (load reg f opt) code opt fp
    | .mp => unpack_map (load reg f opt) code opt fp
    | .reserved => .error .ReservedCode
    | .direct i => .ok (constTuple.getD i .nil, fp)

/-- loads: wrap the buffer in a byte source and decode one top-level
value, discarding the unread remainder.  The fuel is the buffer length
plus one, shown sufficient below. -/
def loads (reg : Registry) (s : List Byte) (opt : Options) : Except Err Value :=
  (load reg (s.length + 1) opt s).map (fun p => p.1)

/-- An empty registry and default options for concrete evaluations. -/
def reg0 : Registry := fun _ => none

/-- Default options: every flag unset, no handler table. -/
def opt0 : Options := {}

/-- The wire-format table of the spec (section 6), transcribed row by
row as a classification of the tag byte: positive fixint, fixmap,
fixarray, fixstr, nil, reserved, false, true, bin 8/16/32, ext 8/16/32,
float 32/64, uint 8-64, int 8-64, fixext 1-16, str 8/16/32, array
16/32, map 16/32, negative fixint.  The single-byte constants carry
their index in the tuple (None, 0, False, True) so the table lands in
the same Route type as the dispatcher. -/
def specRoute (ic : Nat) : Route :=
  if ic ≤ 0x7f then .integer
  else if ic ≤ 0x8f then .mp
  else if ic ≤ 0x9f then .array
  else if ic ≤ 0xbf then .string
  else if ic = 0xc0 then .direct 0
  else if ic = 0xc1 then .reserved
  else if ic = 0xc2 then .direct 2
  else if ic = 0xc3 then .direct 3
  else if ic ≤ 0xc6 then .binary
  else if ic ≤ 0xc9 then .ext
  else if ic ≤ 0xcb then .float
  else if ic ≤ 0xd3 then .integer
  else if ic ≤ 0xd8 then .ext
  else if ic ≤ 0xdb then .string
  else if ic ≤ 0xdd then .array
  else if ic ≤ 0xdf then .mp
  else .integer

/-- A byte source that may deliver data in arbitrarily small chunks,
generalising the BytesIO source: the state is the list of chunks the
transport will deliver, a read of n bytes returns at most n bytes taken
from the front chunk, and an empty front chunk is a read that returns
no data. -/
def chunkRead : List (List Byte) → Nat → List Byte × List (List Byte)
  | [], _ => ([], [])
  | c :: cs, n => if c.length ≤ n then (c, cs) else (c.take n, c.drop n :: cs)

/-- The while loop of _read_except over a chunked source: while fewer
than n bytes are accumulated, read the missing count, fail with
InsufficientDataException on an empty read, and append.  The loop of
the source is unbounded; here it carries fuel, consumed once per
iteration, and since every iteration appends at least one byte a fuel
of n is enough (the theorems below never exhaust it). -/
def readLoop (n : Nat) : Nat → List Byte → List (List Byte) →
    Except Err (List Byte × List (List Byte))
  | 0, data, fp =>
    if data.length < n then .error .OutOfFuel else .ok (data, fp)
  | fuel + 1, data, fp =>
    if data.length < n then
      let p := chunkRead fp (n - data.length)
      if p.1.length = 0 then .error .InsufficientData
      else readLoop n fuel (data ++ p.1) p.2
    else .ok (data, fp)

/-- _read_except over the chunked source: n = 0 reads nothing and
returns the empty byte string, otherwise the first read must return at
least one byte and the loop accumulates until n bytes are present. -/
def read_except (fp : List (List Byte)) (n : Nat) :
    Except Err (List Byte × List (List Byte)) :=
  if n = 0 then .ok ([], fp)
  else
    let p := chunkRead fp n
    if p.1.length = 0 then .error .InsufficientData
    else readLoop n n p.1 p.2

/-- A successful exact read returns the first n bytes and drops them. -/
theorem readF_ok_iff {fp bs r : List Byte} {n : Nat} :
    readF n fp = .ok (bs, r) ↔ bs.length = n ∧ fp = bs ++ r := by
  constructor
  · intro h
    unfold readF at h
    by_cases h0 : n = 0
    · simp [h0] at h
      exact ⟨by simp [h.1, h0], by simp [h.1, h.2]⟩
    · by_cases hle : n ≤ fp.length
      · simp [h0, hle] at h
        obtain ⟨h1, h2⟩ := h
        subst h1
        subst h2
        exact ⟨by simp [Nat.min_eq_left hle], by simp⟩
      · simp [h0, hle] at h
  · rintro ⟨rfl, rfl⟩
    unfold readF
    by_cases h0 : bs.length = 0
    · have hb : bs = [] := List.length_eq_zero.mp h0
      subst hb
      simp
    · have hle : bs.length ≤ (bs ++ r).length := by simp
      simp [h0, hle]

/-- An exact read fails exactly on a short buffer, and only with
InsufficientDataException. -/
theorem readF_err_iff {fp : List Byte} {n : Nat} {e : Err} :
    readF n fp = .error e ↔ e = .InsufficientData ∧ fp.length < n := by
  unfold readF
  by_cases h0 : n = 0
  · simp [h0]
  · by_cases hle : n ≤ fp.length
    · simp [h0, hle]
    · simp [h0, hle]
      constructor
      · intro h
        exact ⟨h.symm, by omega⟩
      · intro h
        exact h.1.symm

/-- Reading one byte succeeds exactly on a nonempty buffer. -/
theorem readByte_ok_iff {fp r : List Byte} {b : Byte} :
    readByte fp = .ok (b, r) ↔ fp = b :: r := by
  cases fp with
  | nil => simp [readByte]
  | cons x xs =>
    simp only [readByte, Except.ok.injEq, Prod.mk.injEq, List.cons.injEq]

/-- Reading one byte fails exactly on the empty buffer, and only with
InsufficientDataException. -/
theorem readByte_err_iff {fp : List Byte} {e : Err} :
    readByte fp = .error e ↔ e = .InsufficientData ∧ fp = [] := by
  cases fp with
  | nil => simp [readByte, eq_comm]
  | cons x xs => simp [readByte]

/-- A successful big-endian field read consumes a field of the declared
width and returns its unsigned value. -/
theorem readBE_ok_iff {fp r : List Byte} {n m : Nat} :
    readBE n fp = .ok (m, r) ↔ ∃ bs, bs.length = n ∧ fp = bs ++ r ∧ m = beU bs := by
  unfold readBE
  constructor
  · intro h
    cases hrf : readF n fp with
    | error e =>
      rw [hrf] at h
      simp [Except.map] at h
    | ok p =>
      obtain ⟨bs, r1⟩ := p
      rw [hrf] at h
      simp only [Except.map, Except.ok.injEq, Prod.mk.injEq] at h
      obtain ⟨hm, rfl⟩ := h
      obtain ⟨h1, rfl⟩ := readF_ok_iff.mp hrf
      exact ⟨bs, h1, rfl, hm.symm⟩
  · rintro ⟨bs, h1, rfl, rfl⟩
    rw [readF_ok_iff.mpr ⟨h1, rfl⟩]
    simp [Except.map]

/-- A big-endian field read fails exactly on a short buffer, and only
with InsufficientDataException. -/
theorem readBE_err_iff {fp : List Byte} {n : Nat} {e : Err} :
    readBE n fp = .error e ↔ e = .InsufficientData ∧ fp.length < n := by
  unfold readBE
  constructor
  · intro h
    cases hrf : readF n fp with
    | error e2 =>
      rw [hrf] at h
      simp only [Except.map, Except.error.injEq] at h
      subst h
      exact readF_err_iff.mp hrf
    | ok p =>
      rw [hrf] at h
      simp [Except.map] at h
  · intro h
    rw [readF_err_iff.mpr h]
    simp [Except.map]

/-- A decode step is consumption-stable when a successful run pins down
the consumed bytes: the remainder is a literal suffix of the input and
rerunning on the consumed bytes followed by any other remainder
succeeds with the same value. -/
def StepOk {α : Type} (m : List Byte → Except Err (α × List Byte)) : Prop :=
  ∀ fp a r, m fp = .ok (a, r) → ∃ u, fp = u ++ r ∧ ∀ s, m (u ++ s) = .ok (a, s)

/-- A decode step is error-stable when every failure other than
InsufficientDataException persists on any extension of the input. -/
def StepErr {α : Type} (m : List Byte → Except Err (α × List Byte)) : Prop :=
  ∀ fp e, m fp = .error e → e ≠ .InsufficientData → ∀ q, m (fp ++ q) = .error e

theorem readF_stepOk (n : Nat) : StepOk (fun fp => readF n fp) := by
  intro fp bs r h
  obtain ⟨h1, rfl⟩ := readF_ok_iff.mp h
  exact ⟨bs, rfl, fun s => readF_ok_iff.mpr ⟨h1, rfl⟩⟩

theorem readF_stepErr (n : Nat) : StepErr (fun fp => readF n fp) := by
  intro fp e h hne
  exact absurd (readF_err_iff.mp h).1 hne

theorem readByte_stepOk : StepOk readByte := by
  intro fp b r h
  obtain rfl := readByte_ok_iff.mp h
  exact ⟨[b], rfl, fun s => readByte_ok_iff.mpr rfl⟩

theorem readByte_stepErr : StepErr readByte := by
  intro fp e h hne
  exact absurd (readByte_err_iff.mp h).1 hne

theorem readBE_stepOk (n : Nat) : StepOk (readBE n) := by
  intro fp a r h
  obtain ⟨bs, h1, rfl, rfl⟩ := readBE_ok_iff.mp h
  exact ⟨bs, rfl, fun s => readBE_ok_iff.mpr ⟨bs, h1, rfl, rfl⟩⟩

theorem readBE_stepErr (n : Nat) : StepErr (readBE n) := by
  intro fp e h hne
  exact absurd (readBE_err_iff.mp h).1 hne

theorem stepOk_pure {α : Type} (a : α) : StepOk (fun fp => Except.ok (a, fp)) := by
  intro fp a2 r h
  simp only [Except.ok.injEq, Prod.mk.injEq] at h
  obtain ⟨rfl, rfl⟩ := h
  exact ⟨[], rfl, fun s => rfl⟩

theorem stepErr_const {α : Type} (e : Err) :
    StepErr (α := α) (fun _ => Except.error e) := by
  intro fp e2 h hne q
  simp only [Except.error.injEq] at h
  subst h
  rfl

theorem strLen_stepOk (c : Byte) : StepOk (strLen c) := by
  unfold strLen
  by_cases h1 : c.val &&& 0xe0 = 0xa0
  · simpa [h1] using stepOk_pure (α := Nat) (c.val &&& 0x1f)
  · by_cases h2 : c.val = 0xd9
    · simpa [h1, h2] using readBE_stepOk 1
    · by_cases h3 : c.val = 0xda
      · simpa [h1, h2, h3] using readBE_stepOk 2
      · by_cases h4 : c.val = 0xdb
        · simpa [h1, h2, h3, h4] using readBE_stepOk 4
        · intro fp a r h
          simp [h1, h2, h3, h4] at h

theorem strLen_stepErr (c : Byte) : StepErr (strLen c) := by
  unfold strLen
  by_cases h1 : c.val &&& 0xe0 = 0xa0
  · intro fp e h
    simp [h1] at h
  · by_cases h2 : c.val = 0xd9
    · simpa [h1, h2] using readBE_stepErr 1
    · by_cases h3 : c.val = 0xda
      · simpa [h1, h2, h3] using readBE_stepErr 2
      · by_cases h4 : c.val = 0xdb
        · simpa [h1, h2, h3, h4] using readBE_stepErr 4
        · simpa [h1, h2, h3, h4] using stepErr_const (α := Nat) .LogicError

theorem binLen_stepOk (c : Byte) : StepOk (binLen c) := by
  unfold binLen
  by_cases h1 : c.val = 0xc4
  · simpa [h1] using readBE_stepOk 1
  · by_cases h2 : c.val = 0xc5
    · simpa [h1, h2] using readBE_stepOk 2
    · by_cases h3 : c.val = 0xc6
      · simpa [h1, h2, h3] using readBE_stepOk 4
      · intro fp a r h
        simp [h1, h2, h3] at h

theorem binLen_stepErr (c : Byte) : StepErr (binLen c) := by
  unfold binLen
  by_cases h1 : c.val = 0xc4
  · simpa [h1] using readBE_stepErr 1
  · by_cases h2 : c.val = 0xc5
    · simpa [h1, h2] using readBE_stepErr 2
    · by_cases h3 : c.val = 0xc6
      · simpa [h1, h2, h3] using readBE_stepErr 4
      · simpa [h1, h2, h3] using stepErr_const (α := Nat) .LogicError

theorem extLen_stepOk (c : Byte) : StepOk (extLen c) := by
  unfold extLen
  cases hf : extFixedLen c with
  | some n => simpa [hf] using stepOk_pure (α := Nat) n
  | none =>
    by_cases h1 : c.val = 0xc7
    · simpa [hf, h1] using readBE_stepOk 1
    · by_cases h2 : c.val = 0xc8
      · simpa [hf, h1, h2] using readBE_stepOk 2
      · by_cases h3 : c.val = 0xc9
        · simpa [hf, h1, h2, h3] using readBE_stepOk 4
        · intro fp a r h
          simp [hf, h1, h2, h3] at h

theorem extLen_stepErr (c : Byte) : StepErr (extLen c) := by
  unfold extLen
  cases hf : extFixedLen c with
  | some n =>
    intro fp e h
    simp [hf] at h
  | none =>
    by_cases h1 : c.val = 0xc7
    · simpa [hf, h1] using readBE_stepErr 1
    · by_cases h2 : c.val = 0xc8
      · simpa [hf, h1, h2] using readBE_stepErr 2
      · by_cases h3 : c.val = 0xc9
        · simpa [hf, h1, h2, h3] using readBE_stepErr 4
        · simpa [hf, h1, h2, h3] using stepErr_const (α := Nat) .LogicError

theorem arrLen_stepOk (c : Byte) : StepOk (arrLen c) := by
  unfold arrLen
  by_cases h1 : c.val &&& 0xf0 = 0x90
  · simpa [h1] using stepOk_pure (α := Nat) (c.val &&& 0x0f)
  · by_cases h2 : c.val = 0xdc
    · simpa [h1, h2] using readBE_stepOk 2
    · by_cases h3 : c.val = 0xdd
      · simpa [h1, h2, h3] using readBE_stepOk 4
      · intro fp a r h
        simp [h1, h2, h3] at h

theorem arrLen_stepErr (c : Byte) : StepErr (arrLen c) := by
  unfold arrLen
  by_cases h1 : c.val &&& 0xf0 = 0x90
  · intro fp e h
    simp [h1] at h
  · by_cases h2 : c.val = 0xdc
    · simpa [h1, h2] using readBE_stepErr 2
    · by_cases h3 : c.val = 0xdd
      · simpa [h1, h2, h3] using readBE_stepErr 4
      · simpa [h1, h2, h3] using stepErr_const (α := Nat) .LogicError

theorem mapLen_stepOk (c : Byte) : StepOk (mapLen c) := by
  unfold mapLen
  by_cases h1 : c.val &&& 0xf0 = 0x80
  · simpa [h1] using stepOk_pure (α := Nat) (c.val &&& 0x0f)
  · by_cases h2 : c.val = 0xde
    · simpa [h1, h2] using readBE_stepOk 2
    · by_cases h3 : c.val = 0xdf
      · simpa [h1, h2, h3] using readBE_stepOk 4
      · intro fp a r h
        simp [h1, h2, h3] at h

theorem mapLen_stepErr (c : Byte) : StepErr (mapLen c) := by
  unfold mapLen
  by_cases h1 : c.val &&& 0xf0 = 0x80
  · intro fp e h
    simp [h1] at h
  · by_cases h2 : c.val = 0xde
    · simpa [h1, h2] using readBE_stepErr 2
    · by_cases h3 : c.val = 0xdf
      · simpa [h1, h2, h3] using readBE_stepErr 4
      · simpa [h1, h2, h3] using stepErr_const (α := Nat) .LogicError

theorem unpack_integer_stepOk (c : Byte) : StepOk (unpack_integer c) := by
  by_cases h1 : c.val &&& 0xe0 = 0xe0
  · intro fp v r h
    unfold unpack_integer at h
    rw [if_pos h1] at h
    simp only [Except.ok.injEq, Prod.mk.injEq] at h
    obtain ⟨rfl, rfl⟩ := h
    refine ⟨[], rfl, fun s => ?_⟩
    unfold unpack_integer
    rw [if_pos h1]
    simp
  · by_cases h2 : c.val &&& 0x80 = 0
    · intro fp v r h
      unfold unpack_integer at h
      rw [if_neg h1, if_pos h2] at h
      simp only [Except.ok.injEq, Prod.mk.injEq] at h
      obtain ⟨rfl, rfl⟩ := h
      refine ⟨[], rfl, fun s => ?_⟩
      unfold unpack_integer
      rw [if_neg h1, if_pos h2]
      simp
    · by_cases h3 : 0xcc ≤ c.val ∧ c.val ≤ 0xd3
      · intro fp v r h
        unfold unpack_integer at h
        rw [if_neg h1, if_neg h2, if_pos h3] at h
        cases h4 : readF (1 <<< ((c.val - 0xcc) &&& 3)) fp with
        | error e =>
          rw [h4] at h
          simp [Bind.bind, Except.bind] at h
        | ok p =>
          obtain ⟨bs, fp1⟩ := p
          rw [h4] at h
          simp only [Bind.bind, Except.bind, Except.ok.injEq, Prod.mk.injEq] at h
          obtain ⟨hv, rfl⟩ := h
          obtain ⟨h5, rfl⟩ := readF_ok_iff.mp h4
          refine ⟨bs, rfl, fun s => ?_⟩
          unfold unpack_integer
          rw [if_neg h1, if_neg h2, if_pos h3,
            readF_ok_iff.mpr ⟨h5, rfl⟩]
          simp only [Bind.bind, Except.bind, Except.ok.injEq, Prod.mk.injEq]
          exact ⟨hv, trivial⟩
      · intro fp v r h
        unfold unpack_integer at h
        rw [if_neg h1, if_neg h2, if_neg h3] at h
        simp at h

theorem unpack_integer_stepErr (c : Byte) : StepErr (unpack_integer c) := by
  intro fp e h hne q
  unfold unpack_integer at h ⊢
  by_cases h1 : c.val &&& 0xe0 = 0xe0
  · rw [if_pos h1] at h
    simp at h
  · by_cases h2 : c.val &&& 0x80 = 0
    · rw [if_neg h1, if_pos h2] at h
      simp at h
    · by_cases h3 : 0xcc ≤ c.val ∧ c.val ≤ 0xd3
      · rw [if_neg h1, if_neg h2, if_pos h3] at h ⊢
        cases h4 : readF (1 <<< ((c.val - 0xcc) &&& 3)) fp with
        | error e2 =>
          rw [h4] at h
          simp only [Bind.bind, Except.bind, Except.error.injEq] at h
          subst h
          exact absurd (readF_err_iff.mp h4).1 hne
        | ok p =>
          obtain ⟨bs, fp1⟩ := p
          rw [h4] at h
          simp [Bind.bind, Except.bind] at h
      · rw [if_neg h1, if_neg h2, if_neg h3] at h ⊢
        exact h

theorem unpack_float_stepOk (c : Byte) : StepOk (unpack_float c) := by
  by_cases h1 : c.val = 0xca
  · intro fp v r h
    unfold unpack_float at h
    rw [if_pos h1] at h
    cases h4 : readF 4 fp with
    | error e =>
      rw [h4] at h
      simp [Bind.bind, Except.bind] at h
    | ok p =>
      obtain ⟨bs, fp1⟩ := p
      rw [h4] at h
      simp only [Bind.bind, Except.bind, Except.ok.injEq, Prod.mk.injEq] at h
      obtain ⟨rfl, rfl⟩ := h
      obtain ⟨h5, rfl⟩ := readF_ok_iff.mp h4
      refine ⟨bs, rfl, fun s => ?_⟩
      unfold unpack_float
      rw [if_pos h1, readF_ok_iff.mpr ⟨h5, rfl⟩]
      simp [Bind.bind, Except.bind]
  · by_cases h2 : c.val = 0xcb
    · intro fp v r h
      unfold unpack_float at h
      rw [if_neg h1, if_pos h2] at h
      cases h4 : readF 8 fp with
      | error e =>
        rw [h4] at h
        simp [Bind.bind, Except.bind] at h
      | ok p =>
        obtain ⟨bs, fp1⟩ := p
        rw [h4] at h
        simp only [Bind.bind, Except.bind, Except.ok.injEq, Prod.mk.injEq] at h
        obtain ⟨rfl, rfl⟩ := h
        obtain ⟨h5, rfl⟩ := readF_ok_iff.mp h4
        refine ⟨bs, rfl, fun s => ?_⟩
        unfold unpack_float
        rw [if_neg h1, if_pos h2, readF_ok_iff.mpr ⟨h5, rfl⟩]
        simp [Bind.bind, Except.bind]
    · intro fp v r h
      unfold unpack_float at h
      rw [if_neg h1, if_neg h2] at h
      simp at h

theorem unpack_float_stepErr (c : Byte) : StepErr (unpack_float c) := by
  intro fp e h hne q
  unfold unpack_float at h ⊢
  by_cases h1 : c.val = 0xca
  · rw [if_pos h1] at h ⊢
    cases h4 : readF 4 fp with
    | error e2 =>
      rw [h4] at h
      simp only [Bind.bind, Except.bind, Except.error.injEq] at h
      subst h
      exact absurd (readF_err_iff.mp h4).1 hne
    | ok p =>
      rw [h4] at h
      obtain ⟨bs, fp1⟩ := p
      simp [Bind.bind, Except.bind] at h
  · by_cases h2 : c.val = 0xcb
    · rw [if_neg h1, if_pos h2] at h ⊢
      cases h4 : readF 8 fp with
      | error e2 =>
        rw [h4] at h
        simp only [Bind.bind, Except.bind, Except.error.injEq] at h
        subst h
        exact absurd (readF_err_iff.mp h4).1 hne
      | ok p =>
        rw [h4] at h
        obtain ⟨bs, fp1⟩ := p
        simp [Bind.bind, Except.bind] at h
    · rw [if_neg h1, if_neg h2] at h ⊢
      exact h

theorem unpack_binary_stepOk (c : Byte) : StepOk (unpack_binary c) := by
  intro fp v r h
  unfold unpack_binary at h
  cases h1 : binLen c fp with
  | error e =>
    rw [h1] at h
    simp [Bind.bind, Except.bind] at h
  | ok p =>
    obtain ⟨n, fp1⟩ := p
    rw [h1] at h
    simp only [Bind.bind, Except.bind] at h
    cases h2 : readF n fp1 with
    | error e =>
      rw [h2] at h
      simp at h
    | ok p2 =>
      obtain ⟨data, fp2⟩ := p2
      rw [h2] at h
      simp only [Except.ok.injEq, Prod.mk.injEq] at h
      obtain ⟨hv, rfl⟩ := h
      obtain ⟨u1, rfl, hu1⟩ := binLen_stepOk c fp n fp1 h1
      obtain ⟨u2, hsp, hu2⟩ := readF_stepOk n fp1 data fp2 h2
      have hu2a : ∀ s, readF n (u2 ++ s) = Except.ok (data, s) := hu2
      subst hsp
      refine ⟨u1 ++ u2, by simp, fun s => ?_⟩
      unfold unpack_binary
      rw [List.append_assoc, hu1 (u2 ++ s)]
      simp only [Bind.bind, Except.bind]
      rw [hu2a s]
      simp [hv]

theorem unpack_binary_stepErr (c : Byte) : StepErr (unpack_binary c) := by
  intro fp e h hne q
  unfold unpack_binary at h ⊢
  cases h1 : binLen c fp with
  | error e2 =>
    rw [h1] at h
    simp only [Bind.bind, Except.bind, Except.error.injEq] at h
    subst h
    rw [binLen_stepErr c fp e2 h1 hne q]
    simp [Bind.bind, Except.bind]
  | ok p =>
    obtain ⟨n, fp1⟩ := p
    rw [h1] at h
    simp only [Bind.bind, Except.bind] at h
    cases h2 : readF n fp1 with
    | error e2 =>
      rw [h2] at h
      simp only [Except.error.injEq] at h
      subst h
      exact absurd (readF_err_iff.mp h2).1 hne
    | ok p2 =>
      obtain ⟨data, fp2⟩ := p2
      rw [h2] at h
      simp at h

theorem unpack_string_stepOk (c : Byte) (opt : Options) :
    StepOk (unpack_string c opt) := by
  intro fp v r h
  unfold unpack_string at h
  cases h1 : strLen c fp with
  | error e =>
    rw [h1] at h
    simp [Bind.bind, Except.bind] at h
  | ok p =>
    obtain ⟨n, fp1⟩ := p
    rw [h1] at h
    simp only [Bind.bind, Except.bind] at h
    cases h2 : readF n fp1 with
    | error e =>
      rw [h2] at h
      simp at h
    | ok p2 =>
      obtain ⟨data, fp2⟩ := p2
      rw [h2] at h
      simp only at h
      obtain ⟨u1, rfl, hu1⟩ := strLen_stepOk c fp n fp1 h1
      obtain ⟨u2, hsp, hu2⟩ := readF_stepOk n fp1 data fp2 h2
      have hu2a : ∀ s, readF n (u2 ++ s) = Except.ok (data, s) := hu2
      subst hsp
      cases hu : utf8Decode data with
      | some cps =>
        rw [hu] at h
        simp only [Except.ok.injEq, Prod.mk.injEq] at h
        obtain ⟨rfl, rfl⟩ := h
        refine ⟨u1 ++ u2, by simp, fun s => ?_⟩
        unfold unpack_string
        rw [List.append_assoc, hu1 (u2 ++ s)]
        simp only [Bind.bind, Except.bind]
        rw [hu2a s]
        simp only
        rw [hu]
      | none =>
        rw [hu] at h
        simp only at h
        by_cases ha : opt.allow_invalid_utf8
        · rw [if_pos ha] at h
          simp only [Except.ok.injEq, Prod.mk.injEq] at h
          obtain ⟨rfl, rfl⟩ := h
          refine ⟨u1 ++ u2, by simp, fun s => ?_⟩
          unfold unpack_string
          rw [List.append_assoc, hu1 (u2 ++ s)]
          simp only [Bind.bind, Except.bind]
          rw [hu2a s]
          simp only
          rw [hu]
          simp only
          rw [if_pos ha]
        · rw [if_neg ha] at h
          simp at h

theorem unpack_string_stepErr (c : Byte) (opt : Options) :
    StepErr (unpack_string c opt) := by
  intro fp e h hne q
  unfold unpack_string at h ⊢
  cases h1 : strLen c fp with
  | error e2 =>
    rw [h1] at h
    simp only [Bind.bind, Except.bind, Except.error.injEq] at h
    subst h
    rw [strLen_stepErr c fp e2 h1 hne q]
    simp [Bind.bind, Except.bind]
  | ok p =>
    obtain ⟨n, fp1⟩ := p
    rw [h1] at h
    simp only [Bind.bind, Except.bind] at h
    cases h2 : readF n fp1 with
    | error e2 =>
      rw [h2] at h
      simp only [Except.error.injEq] at h
      subst h
      exact absurd (readF_err_iff.mp h2).1 hne
    | ok p2 =>
      obtain ⟨data, fp2⟩ := p2
      rw [h2] at h
      simp only at h
      obtain ⟨u1, rfl, hu1⟩ := strLen_stepOk c fp n fp1 h1
      obtain ⟨u2, hsp, hu2⟩ := readF_stepOk n fp1 data fp2 h2
      have hu2a : ∀ s, readF n (u2 ++ s) = Except.ok (data, s) := hu2
      subst hsp
      cases hu : utf8Decode data with
      | some cps =>
        rw [hu] at h
        simp at h
      | none =>
        rw [hu] at h
        simp only at h
        by_cases ha : opt.allow_invalid_utf8
        · rw [if_pos ha] at h
          simp at h
        · rw [if_neg ha] at h
          simp only [Except.error.injEq] at h
          subst h
          rw [List.append_assoc, List.append_assoc, hu1 (u2 ++ (fp2 ++ q))]
          simp only [Bind.bind, Except.bind]
          rw [hu2a (fp2 ++ q)]
          simp only
          rw [hu]
          simp only
          rw [if_neg ha]

theorem unpack_ext_stepOk (reg : Registry) (c : Byte) (opt : Options) :
    StepOk (unpack_ext reg c opt) := by
  intro fp v r h
  unfold unpack_ext at h
  cases h1 : extLen c fp with
  | error e =>
    rw [h1] at h
    simp [Bind.bind, Except.bind] at h
  | ok p =>
    obtain ⟨n, fp1⟩ := p
    rw [h1] at h
    simp only [Bind.bind, Except.bind] at h
    cases h2 : readByte fp1 with
    | error e =>
      rw [h2] at h
      simp at h
    | ok p2 =>
      obtain ⟨tb, fp2⟩ := p2
      rw [h2] at h
      simp only at h
      cases h3 : readF n fp2 with
      | error e =>
        rw [h3] at h
        simp at h
      | ok p3 =>
        obtain ⟨extData, fp3⟩ := p3
        rw [h3] at h
        simp only at h
        cases hres : resolveExt reg opt ⟨sbyte tb, extData⟩ with
        | error e =>
          rw [hres] at h
          simp at h
        | ok v2 =>
          rw [hres] at h
          simp only [Except.ok.injEq, Prod.mk.injEq] at h
          obtain ⟨rfl, rfl⟩ := h
          obtain ⟨u1, rfl, hu1⟩ := extLen_stepOk c fp n fp1 h1
          obtain ⟨u2, hsp2, hu2⟩ := readByte_stepOk fp1 tb fp2 h2
          have hu2a : ∀ s, readByte (u2 ++ s) = Except.ok (tb, s) := hu2
          subst hsp2
          obtain ⟨u3, hsp3, hu3⟩ := readF_stepOk n fp2 extData fp3 h3
          have hu3a : ∀ s, readF n (u3 ++ s) = Except.ok (extData, s) := hu3
          subst hsp3
          refine ⟨u1 ++ (u2 ++ u3), by simp, fun s => ?_⟩
          unfold unpack_ext
          rw [List.append_assoc, List.append_assoc, hu1 (u2 ++ (u3 ++ s))]
          simp only [Bind.bind, Except.bind]
          rw [hu2a (u3 ++ s)]
          simp only
          rw [hu3a s]
          simp only
          rw [hres]

theorem unpack_ext_stepErr (reg : Registry) (c : Byte) (opt : Options) :
    StepErr (unpack_ext reg c opt) := by
  intro fp e h hne q
  unfold unpack_ext at h ⊢
  cases h1 : extLen c fp with
  | error e2 =>
    rw [h1] at h
    simp only [Bind.bind, Except.bind, Except.error.injEq] at h
    subst h
    rw [extLen_stepErr c fp e2 h1 hne q]
    simp [Bind.bind, Except.bind]
  | ok p =>
    obtain ⟨n, fp1⟩ := p
    rw [h1] at h
    simp only [Bind.bind, Except.bind] at h
    cases h2 : readByte fp1 with
    | error e2 =>
      rw [h2] at h
      simp only [Except.error.injEq] at h
      subst h
      exact absurd (readByte_err_iff.mp h2).1 hne
    | ok p2 =>
      obtain ⟨tb, fp2⟩ := p2
      rw [h2] at h
      simp only at h
      cases h3 : readF n fp2 with
      | error e2 =>
        rw [h3] at h
        simp only [Except.error.injEq] at h
        subst h
        exact absurd (readF_err_iff.mp h3).1 hne
      | ok p3 =>
        obtain ⟨extData, fp3⟩ := p3
        rw [h3] at h
        simp only at h
        cases hres : resolveExt reg opt ⟨sbyte tb, extData⟩ with
        | ok v2 =>
          rw [hres] at h
          simp at h
        | error e2 =>
          rw [hres] at h
          simp only [Except.error.injEq] at h
          subst h
          obtain ⟨u1, rfl, hu1⟩ := extLen_stepOk c fp n fp1 h1
          obtain ⟨u2, hsp2, hu2⟩ := readByte_stepOk fp1 tb fp2 h2
          have hu2a : ∀ s, readByte (u2 ++ s) = Except.ok (tb, s) := hu2
          subst hsp2
          obtain ⟨u3, hsp3, hu3⟩ := readF_stepOk n fp2 extData fp3 h3
          have hu3a : ∀ s, readF n (u3 ++ s) = Except.ok (extData, s) := hu3
          subst hsp3
          rw [List.append_assoc, List.append_assoc, List.append_assoc,
            hu1 (u2 ++ (u3 ++ (fp3 ++ q)))]
          simp only [Bind.bind, Except.bind]
          rw [hu2a (u3 ++ (fp3 ++ q))]
          simp only
          rw [hu3a (fp3 ++ q)]
          simp only
          rw [hres]


theorem seqDecode_stepOk {dec : List Byte → Except Err (Value × List Byte)}
    (hdec : StepOk dec) : ∀ n, StepOk (seqDecode dec n) := by
  intro n
  induction n with
  | zero =>
    intro fp vs r h
    simp only [seqDecode, Except.ok.injEq, Prod.mk.injEq] at h
    obtain ⟨rfl, rfl⟩ := h
    exact ⟨[], rfl, fun s => rfl⟩
  | succ n ih =>
    intro fp vs r h
    simp only [seqDecode] at h
    cases h1 : dec fp with
    | error e =>
      rw [h1] at h
      simp [Bind.bind, Except.bind] at h
    | ok p =>
      obtain ⟨v, fp1⟩ := p
      rw [h1] at h
      simp only [Bind.bind, Except.bind] at h
      cases h2 : seqDecode dec n fp1 with
      | error e =>
        rw [h2] at h
        simp at h
      | ok p2 =>
        obtain ⟨vs2, fp2⟩ := p2
        rw [h2] at h
        simp only [Except.ok.injEq, Prod.mk.injEq] at h
        obtain ⟨rfl, rfl⟩ := h
        obtain ⟨u1, rfl, hu1⟩ := hdec fp v fp1 h1
        obtain ⟨u2, hsp, hu2⟩ := ih fp1 vs2 fp2 h2
        subst hsp
        refine ⟨u1 ++ u2, by simp, fun s => ?_⟩
        simp only [seqDecode]
        rw [List.append_assoc, hu1 (u2 ++ s)]
        simp only [Bind.bind, Except.bind]
        rw [hu2 s]

theorem seqDecode_stepErr {dec : List Byte → Except Err (Value × List Byte)}
    (hdecO : StepOk dec) (hdecE : StepErr dec) : ∀ n, StepErr (seqDecode dec n) := by
  intro n
  induction n with
  | zero =>
    intro fp e h
    simp [seqDecode] at h
  | succ n ih =>
    intro fp e h hne q
    simp only [seqDecode] at h ⊢
    cases h1 : dec fp with
    | error e2 =>
      rw [h1] at h
      simp only [Bind.bind, Except.bind, Except.error.injEq] at h
      subst h
      rw [hdecE fp e2 h1 hne q]
      simp [Bind.bind, Except.bind]
    | ok p =>
      obtain ⟨v, fp1⟩ := p
      rw [h1] at h
      simp only [Bind.bind, Except.bind] at h
      cases h2 : seqDecode dec n fp1 with
      | error e2 =>
        rw [h2] at h
        simp only [Except.error.injEq] at h
        subst h
        obtain ⟨u1, rfl, hu1⟩ := hdecO fp v fp1 h1
        rw [List.append_assoc, hu1 (fp1 ++ q)]
        simp only [Bind.bind, Except.bind]
        rw [ih fp1 e2 h2 hne q]
      | ok p2 =>
        obtain ⟨vs2, fp2⟩ := p2
        rw [h2] at h
        simp at h

theorem mapDecode_stepOk {dec : List Byte → Except Err (Value × List Byte)}
    (hdec : StepOk dec) : ∀ n d, StepOk (mapDecode dec n d) := by
  intro n
  induction n with
  | zero =>
    intro d fp vs r h
    simp only [mapDecode, Except.ok.injEq, Prod.mk.injEq] at h
    obtain ⟨rfl, rfl⟩ := h
    exact ⟨[], rfl, fun s => rfl⟩
  | succ n ih =>
    intro d fp res r h
    simp only [mapDecode] at h
    cases h1 : dec fp with
    | error e =>
      rw [h1] at h
      simp [Bind.bind, Except.bind] at h
    | ok p =>
      obtain ⟨k0, fp1⟩ := p
      rw [h1] at h
      simp only [Bind.bind, Except.bind] at h
      by_cases hh : hashable (normKey k0)
      · rw [if_pos hh] at h
        by_cases hc : containsK d (normKey k0)
        · rw [if_pos hc] at h
          simp at h
        · rw [if_neg hc] at h
          cases h2 : dec fp1 with
          | error e =>
            rw [h2] at h
            simp [Bind.bind, Except.bind] at h
          | ok p2 =>
            obtain ⟨v, fp2⟩ := p2
            rw [h2] at h
            simp only [Bind.bind, Except.bind] at h
            rw [if_pos hh] at h
            obtain ⟨u1, rfl, hu1⟩ := hdec fp k0 fp1 h1
            obtain ⟨u2, hsp, hu2⟩ := hdec fp1 v fp2 h2
            subst hsp
            obtain ⟨u3, hsp, hu3⟩ := ih (d ++ [(normKey k0, v)]) fp2 res r h
            subst hsp
            refine ⟨u1 ++ (u2 ++ u3), by simp, fun s => ?_⟩
            simp only [mapDecode]
            rw [List.append_assoc, List.append_assoc, hu1 (u2 ++ (u3 ++ s))]
            simp only [Bind.bind, Except.bind]
            rw [if_pos hh, if_neg hc, hu2 (u3 ++ s)]
            simp only [Bind.bind, Except.bind]
            rw [if_pos hh, hu3 s]
      · rw [if_neg hh] at h
        simp at h

theorem mapDecode_stepErr {dec : List Byte → Except Err (Value × List Byte)}
    (hdecO : StepOk dec) (hdecE : StepErr dec) :
    ∀ n d, StepErr (mapDecode dec n d) := by
  intro n
  induction n with
  | zero =>
    intro d fp e h
    simp [mapDecode] at h
  | succ n ih =>
    intro d fp e h hne q
    simp only [mapDecode] at h ⊢
    cases h1 : dec fp with
    | error e2 =>
      rw [h1] at h
      simp only [Bind.bind, Except.bind, Except.error.injEq] at h
      subst h
      rw [hdecE fp e2 h1 hne q]
      simp [Bind.bind, Except.bind]
    | ok p =>
      obtain ⟨k0, fp1⟩ := p
      rw [h1] at h
      simp only [Bind.bind, Except.bind] at h
      obtain ⟨u1, rfl, hu1⟩ := hdecO fp k0 fp1 h1
      by_cases hh : hashable (normKey k0)
      · rw [if_pos hh] at h
        by_cases hc : containsK d (normKey k0)
        · rw [if_pos hc] at h
          simp only [Except.error.injEq] at h
          subst h
          rw [List.append_assoc, hu1 (fp1 ++ q)]
          simp only [Bind.bind, Except.bind]
          rw [if_pos hh, if_pos hc]
        · rw [if_neg hc] at h
          cases h2 : dec fp1 with
          | error e2 =>
            rw [h2] at h
            simp only [Bind.bind, Except.bind, Except.error.injEq] at h
            subst h
            rw [List.append_assoc, hu1 (fp1 ++ q)]
            simp only [Bind.bind, Except.bind]
            rw [if_pos hh, if_neg hc, hdecE fp1 e2 h2 hne q]
          | ok p2 =>
            obtain ⟨v, fp2⟩ := p2
            rw [h2] at h
            simp only [Bind.bind, Except.bind] at h
            rw [if_pos hh] at h
            obtain ⟨u2, hsp, hu2⟩ := hdecO fp1 v fp2 h2
            subst hsp
            rw [List.append_assoc, List.append_assoc, hu1 (u2 ++ (fp2 ++ q))]
            simp only [Bind.bind, Except.bind]
            rw [if_pos hh, if_neg hc, hu2 (fp2 ++ q)]
            simp only [Bind.bind, Except.bind]
            rw [if_pos hh, ih (d ++ [(normKey k0, v)]) fp2 e h hne q]
      · rw [if_neg hh] at h
        simp only [Except.error.injEq] at h
        subst h
        rw [List.append_assoc, hu1 (fp1 ++ q)]
        simp only [Bind.bind, Except.bind]
        rw [if_neg hh]

theorem unpack_array_stepOk {dec : List Byte → Except Err (Value × List Byte)}
    (hdec : StepOk dec) (c : Byte) (opt : Options) :
    StepOk (unpack_array dec c opt) := by
  intro fp v r h
  unfold unpack_array at h
  cases h1 : arrLen c fp with
  | error e =>
    rw [h1] at h
    simp [Bind.bind, Except.bind] at h
  | ok p =>
    obtain ⟨n, fp1⟩ := p
    rw [h1] at h
    simp only [Bind.bind, Except.bind] at h
    cases h2 : seqDecode dec n fp1 with
    | error e =>
      rw [h2] at h
      simp at h
    | ok p2 =>
      obtain ⟨vs, fp2⟩ := p2
      rw [h2] at h
      simp only [Except.ok.injEq, Prod.mk.injEq] at h
      obtain ⟨hv, rfl⟩ := h
      obtain ⟨u1, rfl, hu1⟩ := arrLen_stepOk c fp n fp1 h1
      obtain ⟨u2, hsp, hu2⟩ := seqDecode_stepOk hdec n fp1 vs fp2 h2
      subst hsp
      refine ⟨u1 ++ u2, by simp, fun s => ?_⟩
      unfold unpack_array
      rw [List.append_assoc, hu1 (u2 ++ s)]
      simp only [Bind.bind, Except.bind]
      rw [hu2 s]
      simp [hv]

theorem unpack_array_stepErr {dec : List Byte → Except Err (Value × List Byte)}
    (hdecO : StepOk dec) (hdecE : StepErr dec) (c : Byte) (opt : Options) :
    StepErr (unpack_array dec c opt) := by
  intro fp e h hne q
  unfold unpack_array at h ⊢
  cases h1 : arrLen c fp with
  | error e2 =>
    rw [h1] at h
    simp only [Bind.bind, Except.bind, Except.error.injEq] at h
    subst h
    rw [arrLen_stepErr c fp e2 h1 hne q]
    simp [Bind.bind, Except.bind]
  | ok p =>
    obtain ⟨n, fp1⟩ := p
    rw [h1] at h
    simp only [Bind.bind, Except.bind] at h
    cases h2 : seqDecode dec n fp1 with
    | error e2 =>
      rw [h2] at h
      simp only [Except.error.injEq] at h
      subst h
      obtain ⟨u1, rfl, hu1⟩ := arrLen_stepOk c fp n fp1 h1
      rw [List.append_assoc, hu1 (fp1 ++ q)]
      simp only [Bind.bind, Except.bind]
      rw [seqDecode_stepErr hdecO hdecE n fp1 e2 h2 hne q]
    | ok p2 =>
      obtain ⟨vs, fp2⟩ := p2
      rw [h2] at h
      simp at h

theorem unpack_map_stepOk {dec : List Byte → Except Err (Value × List Byte)}
    (hdec : StepOk dec) (c : Byte) (opt : Options) :
    StepOk (unpack_map dec c opt) := by
  intro fp v r h
  unfold unpack_map at h
  cases h1 : mapLen c fp with
  | error e =>
    rw [h1] at h
    simp [Bind.bind, Except.bind] at h
  | ok p =>
    obtain ⟨n, fp1⟩ := p
    rw [h1] at h
    simp only [Bind.bind, Except.bind] at h
    cases h2 : mapDecode dec n [] fp1 with
    | error e =>
      rw [h2] at h
      simp at h
    | ok p2 =>
      obtain ⟨d, fp2⟩ := p2
      rw [h2] at h
      simp only [Except.ok.injEq, Prod.mk.injEq] at h
      obtain ⟨hv, rfl⟩ := h
      obtain ⟨u1, rfl, hu1⟩ := mapLen_stepOk c fp n fp1 h1
      obtain ⟨u2, hsp, hu2⟩ := mapDecode_stepOk hdec n [] fp1 d fp2 h2
      subst hsp
      refine ⟨u1 ++ u2, by simp, fun s => ?_⟩
      unfold unpack_map
      rw [List.append_assoc, hu1 (u2 ++ s)]
      simp only [Bind.bind, Except.bind]
      rw [hu2 s]
      simp [hv]

theorem unpack_map_stepErr {dec : List Byte → Except Err (Value × List Byte)}
    (hdecO : StepOk dec) (hdecE : StepErr dec) (c : Byte) (opt : Options) :
    StepErr (unpack_map dec c opt) := by
  intro fp e h hne q
  unfold unpack_map at h ⊢
  cases h1 : mapLen c fp with
  | error e2 =>
    rw [h1] at h
    simp only [Bind.bind, Except.bind, Except.error.injEq] at h
    subst h
    rw [mapLen_stepErr c fp e2 h1 hne q]
    simp [Bind.bind, Except.bind]
  | ok p =>
    obtain ⟨n, fp1⟩ := p
    rw [h1] at h
    simp only [Bind.bind, Except.bind] at h
    cases h2 : mapDecode dec n [] fp1 with
    | error e2 =>
      rw [h2] at h
      simp only [Except.error.injEq] at h
      subst h
      obtain ⟨u1, rfl, hu1⟩ := mapLen_stepOk c fp n fp1 h1
      rw [List.append_assoc, hu1 (fp1 ++ q)]
      simp only [Bind.bind, Except.bind]
      rw [mapDecode_stepErr hdecO hdecE n [] fp1 e2 h2 hne q]
    | ok p2 =>
      obtain ⟨d, fp2⟩ := p2
      rw [h2] at h
      simp at h



theorem load_stepOk (reg : Registry) : ∀ f opt, StepOk (load reg f opt) := by
  intro f
  induction f with
  | zero =>
    intro opt fp v r h
    simp [load] at h
  | succ f ih =>
    intro opt fp v r h
    simp only [load] at h
    cases h1 : readByte fp with
    | error e =>
      rw [h1] at h
      simp [Bind.bind, Except.bind] at h
    | ok p =>
      obtain ⟨code, fp1⟩ := p
      rw [h1] at h
      simp only [Bind.bind, Except.bind] at h
      obtain rfl := readByte_ok_iff.mp h1
      cases hd : dispatch code.val with
      | integer =>
        rw [hd] at h
        obtain ⟨u, rfl, hu⟩ := unpack_integer_stepOk code fp1 v r h
        refine ⟨code :: u, rfl, fun s => ?_⟩
        simp only [load, List.cons_append]
        rw [readByte_ok_iff.mpr rfl]
        simp only [Bind.bind, Except.bind]
        rw [hd]
        exact hu s
      | float =>
        rw [hd] at h
        obtain ⟨u, rfl, hu⟩ := unpack_float_stepOk code fp1 v r h
        refine ⟨code :: u, rfl, fun s => ?_⟩
        simp only [load, List.cons_append]
        rw [readByte_ok_iff.mpr rfl]
        simp only [Bind.bind, Except.bind]
        rw [hd]
        exact hu s
      | string =>
        rw [hd] at h
        obtain ⟨u, rfl, hu⟩ := unpack_string_stepOk code opt fp1 v r h
        refine ⟨code :: u, rfl, fun s => ?_⟩
        simp only [load, List.cons_append]
        rw [readByte_ok_iff.mpr rfl]
        simp only [Bind.bind, Except.bind]
        rw [hd]
        exact hu s
      | binary =>
        rw [hd] at h
        obtain ⟨u, rfl, hu⟩ := unpack_binary_stepOk code fp1 v r h
        refine ⟨code :: u, rfl, fun s => ?_⟩
        simp only [load, List.cons_append]
        rw [readByte_ok_iff.mpr rfl]
        simp only [Bind.bind, Except.bind]
        rw [hd]
        exact hu s
      | ext =>
        rw [hd] at h
        obtain ⟨u, rfl, hu⟩ := unpack_ext_stepOk reg code opt fp1 v r h
        refine ⟨code :: u, rfl, fun s => ?_⟩
        simp only [load, List.cons_append]
        rw [readByte_ok_iff.mpr rfl]
        simp only [Bind.bind, Except.bind]
        rw [hd]
        exact hu s
      | array =>
        rw [hd] at h
        obtain ⟨u, rfl, hu⟩ := unpack_array_stepOk (ih opt) code opt fp1 v r h
        refine ⟨code :: u, rfl, fun s => ?_⟩
        simp only [load, List.cons_append]
        rw [readByte_ok_iff.mpr rfl]
        simp only [Bind.bind, Except.bind]
        rw [hd]
        exact hu s
      | mp =>
        rw [hd] at h
        obtain ⟨u, rfl, hu⟩ := unpack_map_stepOk (ih opt) code opt fp1 v r h
        refine ⟨code :: u, rfl, fun s => ?_⟩
        simp only [load, List.cons_append]
        rw [readByte_ok_iff.mpr rfl]
        simp only [Bind.bind, Except.bind]
        rw [hd]
        exact hu s
      | reserved =>
        rw [hd] at h
        simp at h
      | direct i =>
        rw [hd] at h
        simp only [Except.ok.injEq, Prod.mk.injEq] at h
        obtain ⟨rfl, rfl⟩ := h
        refine ⟨[code], rfl, fun s => ?_⟩
        simp only [load, List.cons_append, List.nil_append]
        rw [readByte_ok_iff.mpr rfl]
        simp only [Bind.bind, Except.bind]
        rw [hd]

theorem load_stepErr (reg : Registry) : ∀ f opt, StepErr (load reg f opt) := by
  intro f
  induction f with
  | zero =>
    intro opt fp e h hne q
    simp only [load, Except.error.injEq] at h
    subst h
    simp [load]
  | succ f ih =>
    intro opt fp e h hne q
    simp only [load] at h ⊢
    cases h1 : readByte fp with
    | error e2 =>
      rw [h1] at h
      simp only [Bind.bind, Except.bind, Except.error.injEq] at h
      subst h
      exact absurd (readByte_err_iff.mp h1).1 hne
    | ok p =>
      obtain ⟨code, fp1⟩ := p
      rw [h1] at h
      simp only [Bind.bind, Except.bind] at h
      obtain rfl := readByte_ok_iff.mp h1
      have h1q : readByte ((code :: fp1) ++ q) = Except.ok (code, fp1 ++ q) := by
        rw [List.cons_append]
        exact readByte_ok_iff.mpr rfl
      rw [h1q]
      simp only [Bind.bind, Except.bind]
      cases hd : dispatch code.val with
      | integer =>
        rw [hd] at h
        exact unpack_integer_stepErr code fp1 e h hne q
      | float =>
        rw [hd] at h
        exact unpack_float_stepErr code fp1 e h hne q
      | string =>
        rw [hd] at h
        exact unpack_string_stepErr code opt fp1 e h hne q
      | binary =>
        rw [hd] at h
        exact unpack_binary_stepErr code fp1 e h hne q
      | ext =>
        rw [hd] at h
        exact unpack_ext_stepErr reg code opt fp1 e h hne q
      | array =>
        rw [hd] at h
        exact unpack_array_stepErr (load_stepOk reg f opt) (ih opt) code opt fp1 e h hne q
      | mp =>
        rw [hd] at h
        exact unpack_map_stepErr (load_stepOk reg f opt) (ih opt) code opt fp1 e h hne q
      | reserved =>
        rw [hd] at h
        simp only [Except.error.injEq] at h
        subst h
        rfl
      | direct i =>
        rw [hd] at h
        simp at h


theorem seqDecode_suff {dec dec' : List Byte → Except Err (Value × List Byte)} {G : Nat}
    (hOk : StepOk dec)
    (hsub : ∀ fp v r, dec fp = .ok (v, r) → fp.length - r.length ≤ G →
      dec' fp = .ok (v, r)) :
    ∀ n fp vs r, seqDecode dec n fp = .ok (vs, r) → fp.length - r.length ≤ G →
      seqDecode dec' n fp = .ok (vs, r) := by
  intro n
  induction n with
  | zero =>
    intro fp vs r h _
    exact h
  | succ n ih =>
    intro fp vs r h hle
    simp only [seqDecode] at h ⊢
    cases h1 : dec fp with
    | error e =>
      rw [h1] at h
      simp [Bind.bind, Except.bind] at h
    | ok p =>
      obtain ⟨v, fp1⟩ := p
      rw [h1] at h
      simp only [Bind.bind, Except.bind] at h
      cases h2 : seqDecode dec n fp1 with
      | error e =>
        rw [h2] at h
        simp at h
      | ok p2 =>
        obtain ⟨vs2, fp2⟩ := p2
        rw [h2] at h
        simp only [Except.ok.injEq, Prod.mk.injEq] at h
        obtain ⟨rfl, rfl⟩ := h
        obtain ⟨u1, hfp, -⟩ := hOk fp v fp1 h1
        obtain ⟨u2, hfp1, -⟩ := seqDecode_stepOk hOk n fp1 vs2 fp2 h2
        subst hfp1
        subst hfp
        have hl1 : dec' (u1 ++ (u2 ++ fp2)) = .ok (v, u2 ++ fp2) := by
          apply hsub _ _ _ h1
          simp only [List.length_append] at hle ⊢
          omega
        have hl2 : seqDecode dec' n (u2 ++ fp2) = .ok (vs2, fp2) := by
          apply ih _ _ _ h2
          simp only [List.length_append] at hle ⊢
          omega
        rw [hl1]
        simp only [Bind.bind, Except.bind]
        rw [hl2]

theorem mapDecode_suff {dec dec' : List Byte → Except Err (Value × List Byte)} {G : Nat}
    (hOk : StepOk dec)
    (hsub : ∀ fp v r, dec fp = .ok (v, r) → fp.length - r.length ≤ G →
      dec' fp = .ok (v, r)) :
    ∀ n d fp res r, mapDecode dec n d fp = .ok (res, r) → fp.length - r.length ≤ G →
      mapDecode dec' n d fp = .ok (res, r) := by
  intro n
  induction n with
  | zero =>
    intro d fp res r h _
    exact h
  | succ n ih =>
    intro d fp res r h hle
    simp only [mapDecode] at h ⊢
    cases h1 : dec fp with
    | error e =>
      rw [h1] at h
      simp [Bind.bind, Except.bind] at h
    | ok p =>
      obtain ⟨k0, fp1⟩ := p
      rw [h1] at h
      simp only [Bind.bind, Except.bind] at h
      by_cases hh : hashable (normKey k0)
      · rw [if_pos hh] at h
        by_cases hc : containsK d (normKey k0)
        · rw [if_pos hc] at h
          simp at h
        · rw [if_neg hc] at h
          cases h2 : dec fp1 with
          | error e =>
            rw [h2] at h
            simp [Bind.bind, Except.bind] at h
          | ok p2 =>
            obtain ⟨v, fp2⟩ := p2
            rw [h2] at h
            simp only [Bind.bind, Except.bind] at h
            rw [if_pos hh] at h
            obtain ⟨u1, hfp, -⟩ := hOk fp k0 fp1 h1
            obtain ⟨u2, hfp1, -⟩ := hOk fp1 v fp2 h2
            obtain ⟨u3, hfp2, -⟩ :=
              mapDecode_stepOk hOk n (d ++ [(normKey k0, v)]) fp2 res r h
            subst hfp2
            subst hfp1
            subst hfp
            have hl1 : dec' (u1 ++ (u2 ++ (u3 ++ r))) = .ok (k0, u2 ++ (u3 ++ r)) := by
              apply hsub _ _ _ h1
              simp only [List.length_append] at hle ⊢
              omega
            have hl2 : dec' (u2 ++ (u3 ++ r)) = .ok (v, u3 ++ r) := by
              apply hsub _ _ _ h2
              simp only [List.length_append] at hle ⊢
              omega
            have hl3 : mapDecode dec' n (d ++ [(normKey k0, v)]) (u3 ++ r) =
                .ok (res, r) := by
              apply ih _ _ _ _ h
              simp only [List.length_append] at hle ⊢
              omega
            rw [hl1]
            simp only [Bind.bind, Except.bind]
            rw [if_pos hh, if_neg hc, hl2]
            simp only [Bind.bind, Except.bind]
            rw [if_pos hh, hl3]
      · rw [if_neg hh] at h
        simp at h

theorem load_consumes (reg : Registry) :
    ∀ f opt fp v r, load reg f opt fp = .ok (v, r) → r.length < fp.length := by
  intro f opt fp v r h
  cases f with
  | zero => simp [load] at h
  | succ f =>
    simp only [load] at h
    cases h1 : readByte fp with
    | error e =>
      rw [h1] at h
      simp [Bind.bind, Except.bind] at h
    | ok p =>
      obtain ⟨code, fp1⟩ := p
      rw [h1] at h
      simp only [Bind.bind, Except.bind] at h
      obtain rfl := readByte_ok_iff.mp h1
      cases hd : dispatch code.val with
      | integer =>
        rw [hd] at h
        obtain ⟨u, hsp, -⟩ := unpack_integer_stepOk code fp1 v r h
        simp [hsp]
        omega
      | float =>
        rw [hd] at h
        obtain ⟨u, hsp, -⟩ := unpack_float_stepOk code fp1 v r h
        simp [hsp]
        omega
      | string =>
        rw [hd] at h
        obtain ⟨u, hsp, -⟩ := unpack_string_stepOk code opt fp1 v r h
        simp [hsp]
        omega
      | binary =>
        rw [hd] at h
        obtain ⟨u, hsp, -⟩ := unpack_binary_stepOk code fp1 v r h
        simp [hsp]
        omega
      | ext =>
        rw [hd] at h
        obtain ⟨u, hsp, -⟩ := unpack_ext_stepOk reg code opt fp1 v r h
        simp [hsp]
        omega
      | array =>
        rw [hd] at h
        obtain ⟨u, hsp, -⟩ := unpack_array_stepOk (load_stepOk reg f opt) code opt fp1 v r h
        simp [hsp]
        omega
      | mp =>
        rw [hd] at h
        obtain ⟨u, hsp, -⟩ := unpack_map_stepOk (load_stepOk reg f opt) code opt fp1 v r h
        simp [hsp]
        omega
      | reserved =>
        rw [hd] at h
        simp at h
      | direct i =>
        rw [hd] at h
        simp only [Except.ok.injEq, Prod.mk.injEq] at h
        obtain ⟨rfl, rfl⟩ := h
        simp

theorem load_suff (reg : Registry) :
    ∀ f g opt fp v r, load reg f opt fp = .ok (v, r) →
      fp.length - r.length ≤ g → load reg g opt fp = .ok (v, r) := by
  intro f
  induction f with
  | zero =>
    intro g opt fp v r h
    simp [load] at h
  | succ f ih =>
    intro g opt fp v r h hle
    simp only [load] at h
    cases h1 : readByte fp with
    | error e =>
      rw [h1] at h
      simp [Bind.bind, Except.bind] at h
    | ok p =>
      obtain ⟨code, fp1⟩ := p
      rw [h1] at h
      simp only [Bind.bind, Except.bind] at h
      obtain rfl := readByte_ok_iff.mp h1
      have hload : load reg (f + 1) opt (code :: fp1) = .ok (v, r) := by
        simp only [load]
        rw [readByte_ok_iff.mpr rfl]
        simp only [Bind.bind, Except.bind]
        exact h
      have hr1 : r.length < (code :: fp1).length := load_consumes reg (f + 1) opt _ v r hload
      obtain ⟨g1, rfl⟩ : ∃ g1, g = g1 + 1 := by
        refine ⟨g - 1, ?_⟩
        simp only [List.length_cons] at hle hr1
        omega
      simp only [load]
      rw [readByte_ok_iff.mpr rfl]
      simp only [Bind.bind, Except.bind]
      cases hd : dispatch code.val with
      | integer =>
        rw [hd] at h
        exact h
      | float =>
        rw [hd] at h
        exact h
      | string =>
        rw [hd] at h
        exact h
      | binary =>
        rw [hd] at h
        exact h
      | ext =>
        rw [hd] at h
        exact h
      | reserved =>
        rw [hd] at h
        simp at h
      | direct i =>
        rw [hd] at h
        exact h
      | array =>
        rw [hd] at h
        show unpack_array (load reg g1 opt) code opt fp1 = Except.ok (v, r)
        unfold unpack_array at h ⊢
        cases h2 : arrLen code fp1 with
        | error e =>
          rw [h2] at h
          simp [Bind.bind, Except.bind] at h
        | ok p2 =>
          obtain ⟨n, fp2⟩ := p2
          rw [h2] at h
          simp only [Bind.bind, Except.bind] at h
          cases h3 : seqDecode (load reg f opt) n fp2 with
          | error e =>
            rw [h3] at h
            simp at h
          | ok p3 =>
            obtain ⟨vs, fp3⟩ := p3
            rw [h3] at h
            simp only [Except.ok.injEq, Prod.mk.injEq] at h
            obtain ⟨hv, rfl⟩ := h
            obtain ⟨u1, hfp1, -⟩ := arrLen_stepOk code fp1 n fp2 h2
            obtain ⟨u2, hfp2, -⟩ :=
              seqDecode_stepOk (load_stepOk reg f opt) n fp2 vs fp3 h3
            have h3g : seqDecode (load reg g1 opt) n fp2 = .ok (vs, fp3) := by
              apply seqDecode_suff (load_stepOk reg f opt)
                (fun s v2 r2 hl hle2 => ih g1 opt s v2 r2 hl hle2) n fp2 vs fp3 h3
              subst hfp2
              subst hfp1
              simp only [List.length_cons, List.length_append] at hle ⊢
              omega
            simp only [Bind.bind, Except.bind]
            rw [h3g]
            simp [hv]
      | mp =>
        rw [hd] at h
        show unpack_map (load reg g1 opt) code opt fp1 = Except.ok (v, r)
        unfold unpack_map at h ⊢
        cases h2 : mapLen code fp1 with
        | error e =>
          rw [h2] at h
          simp [Bind.bind, Except.bind] at h
        | ok p2 =>
          obtain ⟨n, fp2⟩ := p2
          rw [h2] at h
          simp only [Bind.bind, Except.bind] at h
          cases h3 : mapDecode (load reg f opt) n [] fp2 with
          | error e =>
            rw [h3] at h
            simp at h
          | ok p3 =>
            obtain ⟨d, fp3⟩ := p3
            rw [h3] at h
            simp only [Except.ok.injEq, Prod.mk.injEq] at h
            obtain ⟨hv, rfl⟩ := h
            obtain ⟨u1, hfp1, -⟩ := mapLen_stepOk code fp1 n fp2 h2
            obtain ⟨u2, hfp2, -⟩ :=
              mapDecode_stepOk (load_stepOk reg f opt) n [] fp2 d fp3 h3
            have h3g : mapDecode (load reg g1 opt) n [] fp2 = .ok (d, fp3) := by
              apply mapDecode_suff (load_stepOk reg f opt)
                (fun s v2 r2 hl hle2 => ih g1 opt s v2 r2 hl hle2) n [] fp2 d fp3 h3
              subst hfp2
              subst hfp1
              simp only [List.length_cons, List.length_append] at hle ⊢
              omega
            simp only [Bind.bind, Except.bind]
            rw [h3g]
            simp [hv]


/-- A decode step never fails with the impossible-state error. -/
def NoLE {α : Type} (m : List Byte → Except Err (α × List Byte)) : Prop :=
  ∀ fp e, m fp = .error e → e ≠ .LogicError

set_option maxRecDepth 100000
set_option exponentiation.threshold 3000

/-- Tag bytes routed to the integer decoder are exactly the ones its
branches accept. -/
theorem dispatch_integer_shape : ∀ c : Byte, dispatch c.val = .integer →
    c.val &&& 0xe0 = 0xe0 ∨ c.val &&& 0x80 = 0 ∨ (0xcc ≤ c.val ∧ c.val ≤ 0xd3) := by
  decide

/-- Tag bytes routed to the float decoder are exactly 0xca and 0xcb. -/
theorem dispatch_float_shape : ∀ c : Byte, dispatch c.val = .float →
    c.val = 0xca ∨ c.val = 0xcb := by
  decide

/-- Tag bytes routed to the string decoder are exactly the ones its
length computation accepts. -/
theorem dispatch_string_shape : ∀ c : Byte, dispatch c.val = .string →
    c.val &&& 0xe0 = 0xa0 ∨ c.val = 0xd9 ∨ c.val = 0xda ∨ c.val = 0xdb := by
  decide

/-- Tag bytes routed to the binary decoder are exactly 0xc4-0xc6. -/
theorem dispatch_binary_shape : ∀ c : Byte, dispatch c.val = .binary →
    c.val = 0xc4 ∨ c.val = 0xc5 ∨ c.val = 0xc6 := by
  decide

/-- Tag bytes routed to the ext decoder are exactly the five fixed-size
codes and 0xc7-0xc9. -/
theorem dispatch_ext_shape : ∀ c : Byte, dispatch c.val = .ext →
    (extFixedLen c).isSome ∨ c.val = 0xc7 ∨ c.val = 0xc8 ∨ c.val = 0xc9 := by
  decide

/-- Tag bytes routed to the array decoder are exactly the ones its
length computation accepts. -/
theorem dispatch_array_shape : ∀ c : Byte, dispatch c.val = .array →
    c.val &&& 0xf0 = 0x90 ∨ c.val = 0xdc ∨ c.val = 0xdd := by
  decide

/-- Tag bytes routed to the map decoder are exactly the ones its
length computation accepts. -/
theorem dispatch_mp_shape : ∀ c : Byte, dispatch c.val = .mp →
    c.val &&& 0xf0 = 0x80 ∨ c.val = 0xde ∨ c.val = 0xdf := by
  decide

/-- The resolution of an Ext object can only fail with
NotImplementedError. -/
theorem resolveExt_err {reg : Registry} {opt : Options} {e0 : ExtObj} {e : Err} :
    resolveExt reg opt e0 = .error e → e = .NotImplemented := by
  intro h
  unfold resolveExt at h
  cases h1 : opt.ext_handlers.lookup e0.type with
  | some hnd =>
    rw [h1] at h
    simp at h
  | none =>
    rw [h1] at h
    cases h2 : reg e0.type with
    | none =>
      simp [h2] at h
    | some cls =>
      simp only [h2] at h
      cases h3 : cls.unpackb? with
      | some f =>
        simp [h3] at h
      | none =>
        simp [h3] at h
        exact h.symm

theorem unpack_integer_noLE (c : Byte)
    (hc : c.val &&& 0xe0 = 0xe0 ∨ c.val &&& 0x80 = 0 ∨ (0xcc ≤ c.val ∧ c.val ≤ 0xd3)) :
    NoLE (unpack_integer c) := by
  intro fp e h
  unfold unpack_integer at h
  by_cases h1 : c.val &&& 0xe0 = 0xe0
  · simp [h1] at h
  · by_cases h2 : c.val &&& 0x80 = 0
    · simp [h1, h2] at h
    · by_cases h3 : 0xcc ≤ c.val ∧ c.val ≤ 0xd3
      · rw [if_neg h1, if_neg h2, if_pos h3] at h
        cases h4 : readF (1 <<< ((c.val - 0xcc) &&& 3)) fp with
        | error e2 =>
          rw [h4] at h
          simp only [Bind.bind, Except.bind, Except.error.injEq] at h
          subst h
          rw [(readF_err_iff.mp h4).1]
          simp
        | ok p =>
          rw [h4] at h
          obtain ⟨bs, fp1⟩ := p
          simp [Bind.bind, Except.bind] at h
      · rcases hc with hc | hc | hc <;> exact absurd hc (by assumption)

theorem unpack_float_noLE (c : Byte) (hc : c.val = 0xca ∨ c.val = 0xcb) :
    NoLE (unpack_float c) := by
  intro fp e h
  unfold unpack_float at h
  by_cases h1 : c.val = 0xca
  · rw [if_pos h1] at h
    cases h4 : readF 4 fp with
    | error e2 =>
      rw [h4] at h
      simp only [Bind.bind, Except.bind, Except.error.injEq] at h
      subst h
      rw [(readF_err_iff.mp h4).1]
      simp
    | ok p =>
      rw [h4] at h
      obtain ⟨bs, fp1⟩ := p
      simp [Bind.bind, Except.bind] at h
  · by_cases h2 : c.val = 0xcb
    · rw [if_neg h1, if_pos h2] at h
      cases h4 : readF 8 fp with
      | error e2 =>
        rw [h4] at h
        simp only [Bind.bind, Except.bind, Except.error.injEq] at h
        subst h
        rw [(readF_err_iff.mp h4).1]
        simp
      | ok p =>
        rw [h4] at h
        obtain ⟨bs, fp1⟩ := p
        simp [Bind.bind, Except.bind] at h
    · rcases hc with hc | hc <;> exact absurd hc (by assumption)

theorem strLen_err (c : Byte)
    (hc : c.val &&& 0xe0 = 0xa0 ∨ c.val = 0xd9 ∨ c.val = 0xda ∨ c.val = 0xdb)
    {fp : List Byte} {e : Err} (h : strLen c fp = .error e) :
    e = .InsufficientData := by
  unfold strLen at h
  by_cases h1 : c.val &&& 0xe0 = 0xa0
  · simp [h1] at h
  · by_cases h2 : c.val = 0xd9
    · rw [if_neg h1, if_pos h2] at h
      exact (readBE_err_iff.mp h).1
    · by_cases h3 : c.val = 0xda
      · rw [if_neg h1, if_neg h2, if_pos h3] at h
        exact (readBE_err_iff.mp h).1
      · by_cases h4 : c.val = 0xdb
        · rw [if_neg h1, if_neg h2, if_neg h3, if_pos h4] at h
          exact (readBE_err_iff.mp h).1
        · rcases hc with hc | hc | hc | hc <;> exact absurd hc (by assumption)

theorem unpack_string_noLE (c : Byte) (opt : Options)
    (hc : c.val &&& 0xe0 = 0xa0 ∨ c.val = 0xd9 ∨ c.val = 0xda ∨ c.val = 0xdb) :
    NoLE (unpack_string c opt) := by
  intro fp e h
  unfold unpack_string at h
  cases h1 : strLen c fp with
  | error e2 =>
    rw [h1] at h
    simp only [Bind.bind, Except.bind, Except.error.injEq] at h
    subst h
    rw [strLen_err c hc h1]
    simp
  | ok p =>
    obtain ⟨n, fp1⟩ := p
    rw [h1] at h
    simp only [Bind.bind, Except.bind] at h
    cases h2 : readF n fp1 with
    | error e2 =>
      rw [h2] at h
      simp only [Except.error.injEq] at h
      subst h
      rw [(readF_err_iff.mp h2).1]
      simp
    | ok p2 =>
      obtain ⟨data, fp2⟩ := p2
      rw [h2] at h
      simp only at h
      cases hu : utf8Decode data with
      | some cps =>
        rw [hu] at h
        simp at h
      | none =>
        rw [hu] at h
        simp only at h
        by_cases ha : opt.allow_invalid_utf8
        · rw [if_pos ha] at h
          simp at h
        · rw [if_neg ha] at h
          simp only [Except.error.injEq] at h
          subst h
          simp

theorem binLen_err (c : Byte) (hc : c.val = 0xc4 ∨ c.val = 0xc5 ∨ c.val = 0xc6)
    {fp : List Byte} {e : Err} (h : binLen c fp = .error e) :
    e = .InsufficientData := by
  unfold binLen at h
  by_cases h1 : c.val = 0xc4
  · rw [if_pos h1] at h
    exact (readBE_err_iff.mp h).1
  · by_cases h2 : c.val = 0xc5
    · rw [if_neg h1, if_pos h2] at h
      exact (readBE_err_iff.mp h).1
    · by_cases h3 : c.val = 0xc6
      · rw [if_neg h1, if_neg h2, if_pos h3] at h
        exact (readBE_err_iff.mp h).1
      · rcases hc with hc | hc | hc <;> exact absurd hc (by assumption)

theorem unpack_binary_noLE (c : Byte)
    (hc : c.val = 0xc4 ∨ c.val = 0xc5 ∨ c.val = 0xc6) :
    NoLE (unpack_binary c) := by
  intro fp e h
  unfold unpack_binary at h
  cases h1 : binLen c fp with
  | error e2 =>
    rw [h1] at h
    simp only [Bind.bind, Except.bind, Except.error.injEq] at h
    subst h
    rw [binLen_err c hc h1]
    simp
  | ok p =>
    obtain ⟨n, fp1⟩ := p
    rw [h1] at h
    simp only [Bind.bind, Except.bind] at h
    cases h2 : readF n fp1 with
    | error e2 =>
      rw [h2] at h
      simp only [Except.error.injEq] at h
      subst h
      rw [(readF_err_iff.mp h2).1]
      simp
    | ok p2 =>
      obtain ⟨data, fp2⟩ := p2
      rw [h2] at h
      simp at h

theorem extLen_err (c : Byte)
    (hc : (extFixedLen c).isSome ∨ c.val = 0xc7 ∨ c.val = 0xc8 ∨ c.val = 0xc9)
    {fp : List Byte} {e : Err} (h : extLen c fp = .error e) :
    e = .InsufficientData := by
  unfold extLen at h
  cases hf : extFixedLen c with
  | some n =>
    rw [hf] at h
    simp at h
  | none =>
    rw [hf] at h
    by_cases h1 : c.val = 0xc7
    · rw [if_pos h1] at h
      exact (readBE_err_iff.mp h).1
    · by_cases h2 : c.val = 0xc8
      · rw [if_neg h1, if_pos h2] at h
        exact (readBE_err_iff.mp h).1
      · by_cases h3 : c.val = 0xc9
        · rw [if_neg h1, if_neg h2, if_pos h3] at h
          exact (readBE_err_iff.mp h).1
        · rcases hc with hc | hc | hc | hc
          · rw [hf] at hc
            simp [Option.isSome] at hc
          all_goals exact absurd hc (by assumption)

theorem unpack_ext_noLE (reg : Registry) (c : Byte) (opt : Options)
    (hc : (extFixedLen c).isSome ∨ c.val = 0xc7 ∨ c.val = 0xc8 ∨ c.val = 0xc9) :
    NoLE (unpack_ext reg c opt) := by
  intro fp e h
  unfold unpack_ext at h
  cases h1 : extLen c fp with
  | error e2 =>
    rw [h1] at h
    simp only [Bind.bind, Except.bind, Except.error.injEq] at h
    subst h
    rw [extLen_err c hc h1]
    simp
  | ok p =>
    obtain ⟨n, fp1⟩ := p
    rw [h1] at h
    simp only [Bind.bind, Except.bind] at h
    cases h2 : readByte fp1 with
    | error e2 =>
      rw [h2] at h
      simp only [Except.error.injEq] at h
      subst h
      rw [(readByte_err_iff.mp h2).1]
      simp
    | ok p2 =>
      obtain ⟨tb, fp2⟩ := p2
      rw [h2] at h
      simp only at h
      cases h3 : readF n fp2 with
      | error e2 =>
        rw [h3] at h
        simp only [Except.error.injEq] at h
        subst h
        rw [(readF_err_iff.mp h3).1]
        simp
      | ok p3 =>
        obtain ⟨extData, fp3⟩ := p3
        rw [h3] at h
        simp only at h
        cases hres : resolveExt reg opt ⟨sbyte tb, extData⟩ with
        | ok v2 =>
          rw [hres] at h
          simp at h
        | error e2 =>
          rw [hres] at h
          simp only [Except.error.injEq] at h
          subst h
          rw [resolveExt_err hres]
          simp

theorem seqDecode_noLE {dec : List Byte → Except Err (Value × List Byte)}
    (hdec : NoLE dec) : ∀ n, NoLE (seqDecode dec n) := by
  intro n
  induction n with
  | zero =>
    intro fp e h
    simp [seqDecode] at h
  | succ n ih =>
    intro fp e h
    simp only [seqDecode] at h
    cases h1 : dec fp with
    | error e2 =>
      rw [h1] at h
      simp only [Bind.bind, Except.bind, Except.error.injEq] at h
      subst h
      exact hdec fp e2 h1
    | ok p =>
      obtain ⟨v, fp1⟩ := p
      rw [h1] at h
      simp only [Bind.bind, Except.bind] at h
      cases h2 : seqDecode dec n fp1 with
      | error e2 =>
        rw [h2] at h
        simp only [Except.error.injEq] at h
        subst h
        exact ih fp1 e2 h2
      | ok p2 =>
        obtain ⟨vs, fp2⟩ := p2
        rw [h2] at h
        simp at h

theorem mapDecode_noLE {dec : List Byte → Except Err (Value × List Byte)}
    (hdec : NoLE dec) : ∀ n d, NoLE (mapDecode dec n d) := by
  intro n
  induction n with
  | zero =>
    intro d fp e h
    simp [mapDecode] at h
  | succ n ih =>
    intro d fp e h
    simp only [mapDecode] at h
    cases h1 : dec fp with
    | error e2 =>
      rw [h1] at h
      simp only [Bind.bind, Except.bind, Except.error.injEq] at h
      subst h
      exact hdec fp e2 h1
    | ok p =>
      obtain ⟨k0, fp1⟩ := p
      rw [h1] at h
      simp only [Bind.bind, Except.bind] at h
      by_cases hh : hashable (normKey k0)
      · rw [if_pos hh] at h
        by_cases hc : containsK d (normKey k0)
        · rw [if_pos hc] at h
          simp only [Except.error.injEq] at h
          subst h
          simp
        · rw [if_neg hc] at h
          cases h2 : dec fp1 with
          | error e2 =>
            rw [h2] at h
            simp only [Bind.bind, Except.bind, Except.error.injEq] at h
            subst h
            exact hdec fp1 e2 h2
          | ok p2 =>
            obtain ⟨v, fp2⟩ := p2
            rw [h2] at h
            simp only [Bind.bind, Except.bind] at h
            rw [if_pos hh] at h
            exact ih (d ++ [(normKey k0, v)]) fp2 e h
      · rw [if_neg hh] at h
        simp only [Except.error.injEq] at h
        subst h
        simp

theorem unpack_array_noLE {dec : List Byte → Except Err (Value × List Byte)}
    (hdec : NoLE dec) (c : Byte) (opt : Options)
    (hc : c.val &&& 0xf0 = 0x90 ∨ c.val = 0xdc ∨ c.val = 0xdd) :
    NoLE (unpack_array dec c opt) := by
  intro fp e h
  unfold unpack_array at h
  cases h1 : arrLen c fp with
  | error e2 =>
    rw [h1] at h
    simp only [Bind.bind, Except.bind, Except.error.injEq] at h
    subst h
    intro hLE
    subst hLE
    unfold arrLen at h1
    by_cases g1 : c.val &&& 0xf0 = 0x90
    · simp [g1] at h1
    · by_cases g2 : c.val = 0xdc
      · rw [if_neg g1, if_pos g2] at h1
        exact absurd (readBE_err_iff.mp h1).1 (by simp)
      · by_cases g3 : c.val = 0xdd
        · rw [if_neg g1, if_neg g2, if_pos g3] at h1
          exact absurd (readBE_err_iff.mp h1).1 (by simp)
        · rcases hc with hc | hc | hc <;> exact absurd hc (by assumption)
  | ok p =>
    obtain ⟨n, fp1⟩ := p
    rw [h1] at h
    simp only [Bind.bind, Except.bind] at h
    cases h2 : seqDecode dec n fp1 with
    | error e2 =>
      rw [h2] at h
      simp only [Except.error.injEq] at h
      subst h
      exact seqDecode_noLE hdec n fp1 e2 h2
    | ok p2 =>
      obtain ⟨vs, fp2⟩ := p2
      rw [h2] at h
      simp at h

theorem unpack_map_noLE {dec : List Byte → Except Err (Value × List Byte)}
    (hdec : NoLE dec) (c : Byte) (opt : Options)
    (hc : c.val &&& 0xf0 = 0x80 ∨ c.val = 0xde ∨ c.val = 0xdf) :
    NoLE (unpack_map dec c opt) := by
  intro fp e h
  unfold unpack_map at h
  cases h1 : mapLen c fp with
  | error e2 =>
    rw [h1] at h
    simp only [Bind.bind, Except.bind, Except.error.injEq] at h
    subst h
    intro hLE
    subst hLE
    unfold mapLen at h1
    by_cases g1 : c.val &&& 0xf0 = 0x80
    · simp [g1] at h1
    · by_cases g2 : c.val = 0xde
      · rw [if_neg g1, if_pos g2] at h1
        exact absurd (readBE_err_iff.mp h1).1 (by simp)
      · by_cases g3 : c.val = 0xdf
        · rw [if_neg g1, if_neg g2, if_pos g3] at h1
          exact absurd (readBE_err_iff.mp h1).1 (by simp)
        · rcases hc with hc | hc | hc <;> exact absurd hc (by assumption)
  | ok p =>
    obtain ⟨n, fp1⟩ := p
    rw [h1] at h
    simp only [Bind.bind, Except.bind] at h
    cases h2 : mapDecode dec n [] fp1 with
    | error e2 =>
      rw [h2] at h
      simp only [Except.error.injEq] at h
      subst h
      exact mapDecode_noLE hdec n [] fp1 e2 h2
    | ok p2 =>
      obtain ⟨d, fp2⟩ := p2
      rw [h2] at h
      simp at h

/-- The impossible-state branches of the sub-decoders are unreachable
from the dispatcher: decoding never raises the internal logic error. -/
theorem load_noLE (reg : Registry) : ∀ f opt fp,
    load reg f opt fp ≠ .error .LogicError := by
  intro f
  induction f with
  | zero =>
    intro opt fp h
    simp [load] at h
  | succ f ih =>
    intro opt fp h
    simp only [load] at h
    cases h1 : readByte fp with
    | error e =>
      rw [h1] at h
      simp only [Bind.bind, Except.bind, Except.error.injEq] at h
      rw [(readByte_err_iff.mp h1).1] at h
      simp at h
    | ok p =>
      obtain ⟨code, fp1⟩ := p
      rw [h1] at h
      simp only [Bind.bind, Except.bind] at h
      cases hd : dispatch code.val with
      | integer =>
        rw [hd] at h
        exact unpack_integer_noLE code (dispatch_integer_shape code hd) fp1 _ h rfl
      | float =>
        rw [hd] at h
        exact unpack_float_noLE code (dispatch_float_shape code hd) fp1 _ h rfl
      | string =>
        rw [hd] at h
        exact unpack_string_noLE code opt (dispatch_string_shape code hd) fp1 _ h rfl
      | binary =>
        rw [hd] at h
        exact unpack_binary_noLE code (dispatch_binary_shape code hd) fp1 _ h rfl
      | ext =>
        rw [hd] at h
        exact unpack_ext_noLE reg code opt (dispatch_ext_shape code hd) fp1 _ h rfl
      | array =>
        rw [hd] at h
        exact unpack_array_noLE (fun s e2 hs => fun hLE => ih opt s (hLE ▸ hs))
          code opt (dispatch_array_shape code hd) fp1 _ h rfl
      | mp =>
        rw [hd] at h
        exact unpack_map_noLE (fun s e2 hs => fun hLE => ih opt s (hLE ▸ hs))
          code opt (dispatch_mp_shape code hd) fp1 _ h rfl
      | reserved =>
        rw [hd] at h
        simp at h
      | direct i =>
        rw [hd] at h
        simp at h


/-- C1: the dispatcher classifies every possible tag byte 0x00-0xff
exactly as the wire-format table does (first conjunct, with the
dispatcher compared against the table transcription specRoute over all
256 byte values); the internal logic-error branches of the sub-decoders
are unreachable on any input, fuel and options (second conjunct); the
reserved tag 0xc1 always fails with ReservedCodeException (third
conjunct); and the single-byte constant tags decode to nil, false and
true (remaining conjuncts). -/
theorem claim_C1 :
    (∀ c : Byte, dispatch c.val = specRoute c.val) ∧
    (∀ (reg : Registry) (f : Nat) (opt : Options) (fp : List Byte),
      load reg f opt fp ≠ .error .LogicError) ∧
    (∀ (reg : Registry) (f : Nat) (opt : Options) (fp : List Byte),
      load reg (f + 1) opt ((0xc1 : Byte) :: fp) = .error .ReservedCode) ∧
    (∀ (reg : Registry) (f : Nat) (opt : Options) (fp : List Byte),
      load reg (f + 1) opt ((0xc0 : Byte) :: fp) = .ok (.nil, fp)) ∧
    (∀ (reg : Registry) (f : Nat) (opt : Options) (fp : List Byte),
      load reg (f + 1) opt ((0xc2 : Byte) :: fp) = .ok (.bool false, fp)) ∧
    (∀ (reg : Registry) (f : Nat) (opt : Options) (fp : List Byte),
      load reg (f + 1) opt ((0xc3 : Byte) :: fp) = .ok (.bool true, fp)) :=
  ⟨by decide,
   fun reg => load_noLE reg,
   fun reg f opt fp => rfl,
   fun reg f opt fp => rfl,
   fun reg f opt fp => rfl,
   fun reg f opt fp => rfl⟩

/-- C2: for every valid encoded value (a buffer the decoder consumes
exactly, at any fuel) and every strict prefix of its byte sequence,
decoding the prefix fails with InsufficientDataException - never with
any other error and never by returning a value. -/
theorem claim_C2 (reg : Registry) (f : Nat) (opt : Options) (enc : List Byte)
    (v : Value) (h : load reg f opt enc = .ok (v, [])) :
    ∀ k, k < enc.length → load reg f opt (enc.take k) = .error .InsufficientData := by
  intro k hk
  have hsplit : enc.take k ++ enc.drop k = enc := List.take_append_drop k enc
  have hdrop : enc.drop k ≠ [] := by
    intro hnil
    have := List.length_drop k enc
    rw [hnil] at this
    simp at this
    omega
  cases hres : load reg f opt (enc.take k) with
  | ok p =>
    obtain ⟨w, rp⟩ := p
    obtain ⟨u, hu, hrep⟩ := load_stepOk reg f opt (enc.take k) w rp hres
    have hbig := hrep (rp ++ enc.drop k)
    rw [← List.append_assoc, ← hu, hsplit] at hbig
    rw [h] at hbig
    simp only [Except.ok.injEq, Prod.mk.injEq] at hbig
    obtain ⟨-, hnil⟩ := hbig
    exact absurd (List.append_eq_nil.mp hnil.symm).2 hdrop
  | error e =>
    by_cases he : e = .InsufficientData
    · subst he
      rfl
    · have hext := load_stepErr reg f opt (enc.take k) e hres he (enc.drop k)
      rw [hsplit, h] at hext
      simp at hext

/-- Witness for C2: the three-byte encoding of the array [1, 2] decodes
fully, and its two-byte strict prefix fails with
InsufficientDataException. -/
theorem claim_C2_witness :
    load reg0 3 opt0 [0x92, 0x01] = .error .InsufficientData := by
  have h : load reg0 3 opt0 [0x92, 0x01, 0x02] = .ok (.list [.int 1, .int 2], []) := rfl
  exact claim_C2 reg0 3 opt0 [0x92, 0x01, 0x02] (.list [.int 1, .int 2]) h 2 (by decide)

/-- C9: decoding stops after one complete top-level value: appending
arbitrary extra bytes to a valid encoded value never changes the result
of loads and never causes an error; the decoded first value is returned
and the trailing bytes are ignored. -/
theorem claim_C9 (reg : Registry) (f : Nat) (opt : Options) (enc : List Byte)
    (v : Value) (extra : List Byte) (h : load reg f opt enc = .ok (v, [])) :
    loads reg (enc ++ extra) opt = .ok v := by
  obtain ⟨u, hu, hrep⟩ := load_stepOk reg f opt enc v [] h
  rw [List.append_nil] at hu
  subst hu
  have hext : load reg f opt (enc ++ extra) = .ok (v, extra) := hrep extra
  have hfit : (enc ++ extra).length - extra.length ≤ (enc ++ extra).length + 1 := by omega
  have hbig := load_suff reg f ((enc ++ extra).length + 1) opt (enc ++ extra) v extra hext hfit
  unfold loads
  rw [hbig]
  rfl

/-- Witness for C9: the one-byte encoding of 42 followed by trailing
garbage (including the reserved code) still decodes to 42. -/
theorem claim_C9_witness :
    loads reg0 ([0x2a] ++ [0xc1, 0xff]) opt0 = .ok (.int 42) :=
  claim_C9 reg0 1 opt0 [0x2a] (.int 42) [0xc1, 0xff] rfl


theorem unpack_integer_field (c : Byte) (w : Nat) (sgn : Bool)
    (h1 : ¬(c.val &&& 0xe0 = 0xe0)) (h2 : ¬(c.val &&& 0x80 = 0))
    (h3 : 0xcc ≤ c.val ∧ c.val ≤ 0xd3)
    (hw : 1 <<< ((c.val - 0xcc) &&& 3) = w)
    (hs : (intFmtTable.getD (c.val - 0xcc) .u8).signed = sgn)
    (bs rest : List Byte) (hbs : bs.length = w) :
    unpack_integer c (bs ++ rest) =
      .ok (.int (if sgn then beS bs else (beU bs : Int)), rest) := by
  unfold unpack_integer
  rw [if_neg h1, if_neg h2, if_pos h3, hw, readF_ok_iff.mpr ⟨hbs, rfl⟩]
  simp only [Bind.bind, Except.bind]
  rw [hs]

theorem negfix_key : ∀ c : Byte, 0xe0 ≤ c.val →
    c.val &&& 0xe0 = 0xe0 ∧ ((c.val &&& 0x1f : Nat) : Int) - 32 = sbyte c ∧
    -32 ≤ ((c.val &&& 0x1f : Nat) : Int) - 32 ∧ ((c.val &&& 0x1f : Nat) : Int) - 32 ≤ -1 := by
  decide

/-- C3: the integer decoder returns the exact encoded integer.  A
positive-fixint tag 0x00-0x7f decodes to the byte value itself; a
negative-fixint tag 0xe0-0xff decodes to the sign-extended low 5 bits,
a value in -32..-1; and tags 0xcc-0xcf and 0xd0-0xd3 decode a following
1/2/4/8-byte big-endian field as unsigned and signed respectively, the
width and signedness fixed by the tag as the eight field conjuncts
spell out. -/
theorem claim_C3 :
    (∀ c : Byte, c.val ≤ 0x7f → ∀ fp, unpack_integer c fp = .ok (.int (c.val : Int), fp)) ∧
    (∀ c : Byte, 0xe0 ≤ c.val → ∀ fp,
      unpack_integer c fp = .ok (.int (((c.val &&& 0x1f : Nat) : Int) - 32), fp) ∧
      -32 ≤ ((c.val &&& 0x1f : Nat) : Int) - 32 ∧
      ((c.val &&& 0x1f : Nat) : Int) - 32 ≤ -1) ∧
    (∀ bs rest : List Byte, bs.length = 1 →
      unpack_integer 0xcc (bs ++ rest) = .ok (.int (beU bs : Int), rest)) ∧
    (∀ bs rest : List Byte, bs.length = 2 →
      unpack_integer 0xcd (bs ++ rest) = .ok (.int (beU bs : Int), rest)) ∧
    (∀ bs rest : List Byte, bs.length = 4 →
      unpack_integer 0xce (bs ++ rest) = .ok (.int (beU bs : Int), rest)) ∧
    (∀ bs rest : List Byte, bs.length = 8 →
      unpack_integer 0xcf (bs ++ rest) = .ok (.int (beU bs : Int), rest)) ∧
    (∀ bs rest : List Byte, bs.length = 1 →
      unpack_integer 0xd0 (bs ++ rest) = .ok (.int (beS bs), rest)) ∧
    (∀ bs rest : List Byte, bs.length = 2 →
      unpack_integer 0xd1 (bs ++ rest) = .ok (.int (beS bs), rest)) ∧
    (∀ bs rest : List Byte, bs.length = 4 →
      unpack_integer 0xd2 (bs ++ rest) = .ok (.int (beS bs), rest)) ∧
    (∀ bs rest : List Byte, bs.length = 8 →
      unpack_integer 0xd3 (bs ++ rest) = .ok (.int (beS bs), rest)) := by
  refine ⟨?_, ?_, ?_, ?_, ?_, ?_, ?_, ?_, ?_, ?_⟩
  · intro c hc fp
    have key : ¬(c.val &&& 0xe0 = 0xe0) ∧ c.val &&& 0x80 = 0 := by
      revert hc
      revert c
      decide
    unfold unpack_integer
    rw [if_neg key.1, if_pos key.2]
  · intro c hc fp
    obtain ⟨k1, k2, k3, k4⟩ := negfix_key c hc
    refine ⟨?_, k3, k4⟩
    unfold unpack_integer
    rw [if_pos k1, ← k2]
  · intro bs rest hbs
    simpa using unpack_integer_field 0xcc 1 false (by decide) (by decide) (by decide)
      (by decide) (by decide) bs rest hbs
  · intro bs rest hbs
    simpa using unpack_integer_field 0xcd 2 false (by decide) (by decide) (by decide)
      (by decide) (by decide) bs rest hbs
  · intro bs rest hbs
    simpa using unpack_integer_field 0xce 4 false (by decide) (by decide) (by decide)
      (by decide) (by decide) bs rest hbs
  · intro bs rest hbs
    simpa using unpack_integer_field 0xcf 8 false (by decide) (by decide) (by decide)
      (by decide) (by decide) bs rest hbs
  · intro bs rest hbs
    simpa using unpack_integer_field 0xd0 1 true (by decide) (by decide) (by decide)
      (by decide) (by decide) bs rest hbs
  · intro bs rest hbs
    simpa using unpack_integer_field 0xd1 2 true (by decide) (by decide) (by decide)
      (by decide) (by decide) bs rest hbs
  · intro bs rest hbs
    simpa using unpack_integer_field 0xd2 4 true (by decide) (by decide) (by decide)
      (by decide) (by decide) bs rest hbs
  · intro bs rest hbs
    simpa using unpack_integer_field 0xd3 8 true (by decide) (by decide) (by decide)
      (by decide) (by decide) bs rest hbs

/-- Witness for C3: a positive fixint, a negative fixint, a two-byte
unsigned field and a one-byte signed field, each at concrete bytes. -/
theorem claim_C3_witness :
    unpack_integer 0x05 [] = .ok (.int 5, []) ∧
    unpack_integer 0xe5 [] = .ok (.int (-27), []) ∧
    unpack_integer 0xcd ([0x01, 0x02] ++ []) = .ok (.int 258, []) ∧
    unpack_integer 0xd0 ([0xff] ++ []) = .ok (.int (-1), []) := by
  refine ⟨?_, ?_, ?_, ?_⟩
  · exact claim_C3.1 0x05 (by decide) []
  · have := (claim_C3.2.1 0xe5 (by decide) []).1
    simpa using this
  · have := claim_C3.2.2.2.1 [0x01, 0x02] [] (by decide)
    simpa using this
  · have := claim_C3.2.2.2.2.2.2.1 [0xff] [] (by decide)
    simpa using this


/-- C4: during map decoding, a decoded key equal (as a Python value,
after list-to-tuple normalization) to a key already inserted into the
dict under construction fails with DuplicateKeyException, whatever
bytes follow - there is no winner/loser resolution (first conjunct);
concretely, a map with two entries sharing the same key bytes fails
with DuplicateKeyException (second conjunct), and so do
distinct-but-equal decoded keys: two empty-array keys once arrays are
tuple-normalized (third), the int key 1 repeated as the float64 key
1.0 (fourth), the key True repeated as 1.0 (fifth), a float32 and a
float64 encoding of 1.0 (sixth), and the key 0.0 repeated as -0.0
(seventh).  Repeating a NaN key is NOT a duplicate - each decode is a
fresh float object unequal to every float including itself - so the
final conjunct decodes a map with two NaN keys successfully, keeping
both entries. -/
theorem claim_C4 :
    (∀ (reg : Registry) (f : Nat) (opt : Options) (fp fp1 : List Byte) (k0 : Value)
      (d : List (Value × Value)) (n : Nat),
      load reg f opt fp = .ok (k0, fp1) →
      hashable (normKey k0) = true →
      containsK d (normKey k0) = true →
      mapDecode (load reg f opt) (n + 1) d fp = .error .DuplicateKey) ∧
    loads reg0 [0x82, 0x01, 0xc0, 0x01, 0xc0] opt0 = .error .DuplicateKey ∧
    loads reg0 [0x82, 0x90, 0xc0, 0x90, 0xc0] opt0 = .error .DuplicateKey ∧
    loads reg0 [0x82, 0x01, 0xc0,
      0xcb, 0x3f, 0xf0, 0x00, 0x00, 0x00, 0x00, 0x00, 0x00, 0xc0] opt0 =
      .error .DuplicateKey ∧
    loads reg0 [0x82, 0xc3, 0xc0,
      0xcb, 0x3f, 0xf0, 0x00, 0x00, 0x00, 0x00, 0x00, 0x00, 0xc0] opt0 =
      .error .DuplicateKey ∧
    loads reg0 [0x82, 0xca, 0x3f, 0x80, 0x00, 0x00, 0xc0,
      0xcb, 0x3f, 0xf0, 0x00, 0x00, 0x00, 0x00, 0x00, 0x00, 0xc0] opt0 =
      .error .DuplicateKey ∧
    loads reg0 [0x82, 0xcb, 0x00, 0x00, 0x00, 0x00, 0x00, 0x00, 0x00, 0x00, 0xc0,
      0xcb, 0x80, 0x00, 0x00, 0x00, 0x00, 0x00, 0x00, 0x00, 0xc0] opt0 =
      .error .DuplicateKey ∧
    loads reg0 [0x82, 0xcb, 0x7f, 0xf8, 0x00, 0x00, 0x00, 0x00, 0x00, 0x00, 0xc0,
      0xcb, 0x7f, 0xf8, 0x00, 0x00, 0x00, 0x00, 0x00, 0x00, 0xc0] opt0 =
      .ok (.map [(.f64 [0x7f, 0xf8, 0x00, 0x00, 0x00, 0x00, 0x00, 0x00], .nil),
        (.f64 [0x7f, 0xf8, 0x00, 0x00, 0x00, 0x00, 0x00, 0x00], .nil)]) := by
  refine ⟨?_, rfl, rfl, rfl, rfl, rfl, rfl, rfl⟩
  intro reg f opt fp fp1 k0 d n hload hhash hdup
  simp only [mapDecode]
  rw [hload]
  simp only [Bind.bind, Except.bind]
  rw [if_pos hhash, if_pos hdup]

/-- Witness for C4: a one-entry continuation whose decoded key 1 is
already present in the dict under construction fails with
DuplicateKeyException even though valid value bytes follow, and so
does a decoded float64 key 1.0 against the present int key 1 (Python
numeric equality across the int/float divide). -/
theorem claim_C4_witness :
    (mapDecode (load reg0 1 opt0) 1 [(.int 1, .nil)] [0x01, 0xc0] =
      .error .DuplicateKey) ∧
    (mapDecode (load reg0 1 opt0) 1 [(.int 1, .nil)]
      [0xcb, 0x3f, 0xf0, 0x00, 0x00, 0x00, 0x00, 0x00, 0x00] =
      .error .DuplicateKey) :=
  ⟨claim_C4.1 reg0 1 opt0 [0x01, 0xc0] [0xc0] (.int 1) [(.int 1, .nil)] 0 rfl rfl rfl,
   claim_C4.1 reg0 1 opt0 [0xcb, 0x3f, 0xf0, 0x00, 0x00, 0x00, 0x00, 0x00, 0x00] []
     (.f64 [0x3f, 0xf0, 0x00, 0x00, 0x00, 0x00, 0x00, 0x00]) [(.int 1, .nil)] 0
     rfl rfl rfl⟩

/-- C5: during map decoding, a decoded list key is first recursively
converted to a tuple; any key that is still not usable as a dict key
fails with UnhashableKeyException whatever bytes follow (first
conjunct; both the hash pre-check and the insertion fallback of the
source report this same error).  Concretely: a decoded mapping as key
fails with UnhashableKeyException (second conjunct), so does a tuple
key containing a mapping under use_tuple (third conjunct), and a
nested-list key becomes a hashable nested tuple and decodes fine
(fourth conjunct). -/
theorem claim_C5 :
    (∀ (reg : Registry) (f : Nat) (opt : Options) (fp fp1 : List Byte) (k0 : Value)
      (d : List (Value × Value)) (n : Nat),
      load reg f opt fp = .ok (k0, fp1) →
      hashable (normKey k0) = false →
      mapDecode (load reg f opt) (n + 1) d fp = .error .UnhashableKey) ∧
    loads reg0 [0x81, 0x80, 0xc0] opt0 = .error .UnhashableKey ∧
    loads reg0 [0x81, 0x91, 0x80, 0xc0] { use_tuple := true } = .error .UnhashableKey ∧
    loads reg0 [0x81, 0x91, 0x90, 0x2a] opt0 =
      .ok (.map [(.tuple [.tuple []], .int 42)]) := by
  refine ⟨?_, rfl, rfl, rfl⟩
  intro reg f opt fp fp1 k0 d n hload hhash
  simp only [mapDecode]
  rw [hload]
  simp only [Bind.bind, Except.bind]
  rw [if_neg (by rw [hhash]; simp)]

/-- Witness for C5: a one-entry continuation whose decoded key is the
empty dict fails with UnhashableKeyException even though bytes
follow. -/
theorem claim_C5_witness :
    mapDecode (load reg0 1 opt0) 1 [] [0x80, 0xff] = .error .UnhashableKey :=
  claim_C5.1 reg0 1 opt0 [0x80, 0xff] [0xff] (.map []) [] 0 rfl rfl

/-- C10: in map decoding, the hashability and duplicate-key checks run
after a key is decoded but before its associated value is decoded: the
first two conjuncts quantify over a completely arbitrary remainder
after the key bytes, so the entry fails with UnhashableKeyException or
DuplicateKeyException no matter whether the value bytes are truncated
or malformed; the last three conjuncts run the decoder on concrete
maps whose offending entry has no value bytes at all - a repeated int
key, a float64 key 1.0 duplicating the prior int key 1 by Python
numeric equality, and an unhashable dict key.  Both duplicates report
DuplicateKeyException, not the InsufficientDataException the missing
value would have raised. -/
theorem claim_C10 :
    (∀ (reg : Registry) (f : Nat) (opt : Options) (fp rest : List Byte) (k0 : Value)
      (d : List (Value × Value)) (n : Nat),
      load reg f opt fp = .ok (k0, rest) →
      hashable (normKey k0) = false →
      mapDecode (load reg f opt) (n + 1) d fp = .error .UnhashableKey) ∧
    (∀ (reg : Registry) (f : Nat) (opt : Options) (fp rest : List Byte) (k0 : Value)
      (d : List (Value × Value)) (n : Nat),
      load reg f opt fp = .ok (k0, rest) →
      hashable (normKey k0) = true →
      containsK d (normKey k0) = true →
      mapDecode (load reg f opt) (n + 1) d fp = .error .DuplicateKey) ∧
    loads reg0 [0x82, 0x01, 0xc0, 0x01] opt0 = .error .DuplicateKey ∧
    loads reg0 [0x82, 0x01, 0xc0,
      0xcb, 0x3f, 0xf0, 0x00, 0x00, 0x00, 0x00, 0x00, 0x00] opt0 =
      .error .DuplicateKey ∧
    loads reg0 [0x81, 0x80] opt0 = .error .UnhashableKey := by
  refine ⟨?_, ?_, rfl, rfl, rfl⟩
  · intro reg f opt fp rest k0 d n hload hhash
    simp only [mapDecode]
    rw [hload]
    simp only [Bind.bind, Except.bind]
    rw [if_neg (by rw [hhash]; simp)]
  · intro reg f opt fp rest k0 d n hload hhash hdup
    simp only [mapDecode]
    rw [hload]
    simp only [Bind.bind, Except.bind]
    rw [if_pos hhash, if_pos hdup]

/-- Witness for C10: with no value bytes at all after the key, the
duplicate key 1 and the unhashable empty-dict key still fail with
DuplicateKeyException and UnhashableKeyException respectively. -/
theorem claim_C10_witness :
    mapDecode (load reg0 1 opt0) 1 [] [0x80] = .error .UnhashableKey ∧
    mapDecode (load reg0 1 opt0) 1 [(.int 1, .nil)] [0x01] = .error .DuplicateKey :=
  ⟨claim_C10.1 reg0 1 opt0 [0x80] [] (.map []) [] 0 rfl rfl,
   claim_C10.2.1 reg0 1 opt0 [0x01] [] (.int 1) [(.int 1, .nil)] 0 rfl rfl rfl⟩


theorem beU_one (a : Byte) : beU [a] = a.val := by
  simp [beU]

theorem beU_two (a b : Byte) : beU [a, b] = 256 * a.val + b.val := by
  simp [beU]
  ring

/-- C6: the string decoder reads exactly the declared number of payload
bytes - length from the low 5 bits of a fixstr tag or from a following
1/2/4-byte big-endian field (first four conjuncts) - and then returns
the UTF-8 decoding of the payload (fifth conjunct); when the payload is
not valid UTF-8 it returns the raw byte payload if allow_invalid_utf8
is set (sixth conjunct) and fails with InvalidStringException otherwise
(seventh conjunct). -/
theorem claim_C6 :
    (∀ (c : Byte) (fp : List Byte), 0xa0 ≤ c.val → c.val ≤ 0xbf →
      strLen c fp = .ok (c.val &&& 0x1f, fp)) ∧
    (∀ (a : Byte) (fp : List Byte), strLen 0xd9 (a :: fp) = .ok (a.val, fp)) ∧
    (∀ (a b : Byte) (fp : List Byte),
      strLen 0xda (a :: b :: fp) = .ok (256 * a.val + b.val, fp)) ∧
    (∀ (a b c d : Byte) (fp : List Byte),
      strLen 0xdb (a :: b :: c :: d :: fp) = .ok (beU [a, b, c, d], fp)) ∧
    (∀ (c : Byte) (opt : Options) (n : Nat) (fp payload rest : List Byte)
      (cps : List Nat),
      strLen c fp = .ok (n, payload ++ rest) → payload.length = n →
      utf8Decode payload = some cps →
      unpack_string c opt fp = .ok (.str cps, rest)) ∧
    (∀ (c : Byte) (opt : Options) (n : Nat) (fp payload rest : List Byte),
      strLen c fp = .ok (n, payload ++ rest) → payload.length = n →
      utf8Decode payload = none → opt.allow_invalid_utf8 = true →
      unpack_string c opt fp = .ok (.bin payload, rest)) ∧
    (∀ (c : Byte) (opt : Options) (n : Nat) (fp payload rest : List Byte),
      strLen c fp = .ok (n, payload ++ rest) → payload.length = n →
      utf8Decode payload = none → opt.allow_invalid_utf8 = false →
      unpack_string c opt fp = .error .InvalidString) := by
  refine ⟨?_, ?_, ?_, ?_, ?_, ?_, ?_⟩
  · intro c fp hlo hhi
    have key : c.val &&& 0xe0 = 0xa0 := by
      revert hlo hhi
      revert c
      decide
    unfold strLen
    rw [if_pos key]
  · intro a fp
    unfold strLen
    rw [if_neg (by decide), if_pos (by decide),
      (@readBE_ok_iff (a :: fp) fp 1 a.val).mpr ⟨[a], rfl, rfl, (beU_one a).symm⟩]
  · intro a b fp
    unfold strLen
    rw [if_neg (by decide), if_neg (by decide), if_pos (by decide),
      (@readBE_ok_iff (a :: b :: fp) fp 2 (256 * a.val + b.val)).mpr
        ⟨[a, b], rfl, rfl, (beU_two a b).symm⟩]
  · intro a b c d fp
    unfold strLen
    rw [if_neg (by decide), if_neg (by decide), if_neg (by decide), if_pos (by decide),
      (@readBE_ok_iff (a :: b :: c :: d :: fp) fp 4 (beU [a, b, c, d])).mpr
        ⟨[a, b, c, d], rfl, rfl, rfl⟩]
  · intro c opt n fp payload rest cps hsl hlen hu
    unfold unpack_string
    rw [hsl]
    simp only [Bind.bind, Except.bind]
    rw [readF_ok_iff.mpr ⟨hlen, rfl⟩]
    simp only
    rw [hu]
  · intro c opt n fp payload rest hsl hlen hu ha
    unfold unpack_string
    rw [hsl]
    simp only [Bind.bind, Except.bind]
    rw [readF_ok_iff.mpr ⟨hlen, rfl⟩]
    simp only
    rw [hu]
    simp only
    rw [if_pos ha]
  · intro c opt n fp payload rest hsl hlen hu ha
    unfold unpack_string
    rw [hsl]
    simp only [Bind.bind, Except.bind]
    rw [readF_ok_iff.mpr ⟨hlen, rfl⟩]
    simp only
    rw [hu]
    simp only
    rw [if_neg (by rw [ha]; simp)]

/-- Witness for C6: the one-character fixstr "a" decodes to the string
"a"; the fixstr payload 0xff is invalid UTF-8 and is returned raw when
allow_invalid_utf8 is set and fails with InvalidStringException when
not. -/
theorem claim_C6_witness :
    unpack_string 0xa1 opt0 [0x61] = .ok (.str [0x61], []) ∧
    unpack_string 0xa1 { opt0 with allow_invalid_utf8 := true } [0xff] =
      .ok (.bin [0xff], []) ∧
    unpack_string 0xa1 opt0 [0xff] = .error .InvalidString := by
  refine ⟨?_, ?_, ?_⟩
  · exact claim_C6.2.2.2.2.1 0xa1 opt0 1 [0x61] [0x61] [] [0x61]
      (claim_C6.1 0xa1 [0x61] (by decide) (by decide)) rfl rfl
  · exact claim_C6.2.2.2.2.2.1 0xa1 { opt0 with allow_invalid_utf8 := true } 1
      [0xff] [0xff] [] (claim_C6.1 0xa1 [0xff] (by decide) (by decide)) rfl rfl rfl
  · exact claim_C6.2.2.2.2.2.2 0xa1 opt0 1 [0xff] [0xff] []
      (claim_C6.1 0xa1 [0xff] (by decide) (by decide)) rfl rfl rfl

/-- C7: the extension decoder resolves in a fixed three-tier order.
If the per-call options supply a handler for the exact type identifier,
that handler is invoked with the Ext object and its result returned
(first conjunct); otherwise a registry entry with a decode capability
is invoked on the payload (second conjunct) and one without fails with
NotImplementedError (third conjunct); otherwise the raw Ext object is
returned unchanged (fourth conjunct).  The last two conjuncts tie the
resolution to the wire format: a fixext-1 value and an ext-8 value are
decoded into an Ext object of the signed type byte and payload, and
handed to exactly this resolution. -/
theorem claim_C7 :
    (∀ (reg : Registry) (opt : Options) (e0 : ExtObj) (h : ExtObj → Value),
      opt.ext_handlers.lookup e0.type = some h →
      resolveExt reg opt e0 = .ok (h e0)) ∧
    (∀ (reg : Registry) (opt : Options) (e0 : ExtObj) (cls : ExtClass)
      (f : List Byte → Value),
      opt.ext_handlers.lookup e0.type = none → reg e0.type = some cls →
      cls.unpackb? = some f →
      resolveExt reg opt e0 = .ok (f e0.data)) ∧
    (∀ (reg : Registry) (opt : Options) (e0 : ExtObj) (cls : ExtClass),
      opt.ext_handlers.lookup e0.type = none → reg e0.type = some cls →
      cls.unpackb? = none →
      resolveExt reg opt e0 = .error .NotImplemented) ∧
    (∀ (reg : Registry) (opt : Options) (e0 : ExtObj),
      opt.ext_handlers.lookup e0.type = none → reg e0.type = none →
      resolveExt reg opt e0 = .ok (.ext e0.type e0.data)) ∧
    (∀ (reg : Registry) (opt : Options) (t d : Byte) (rest : List Byte),
      unpack_ext reg 0xd4 opt (t :: d :: rest) =
        (resolveExt reg opt ⟨sbyte t, [d]⟩).map (fun v => (v, rest))) ∧
    (∀ (reg : Registry) (opt : Options) (L t : Byte) (payload rest : List Byte),
      payload.length = L.val →
      unpack_ext reg 0xc7 opt (L :: t :: (payload ++ rest)) =
        (resolveExt reg opt ⟨sbyte t, payload⟩).map (fun v => (v, rest))) := by
  refine ⟨?_, ?_, ?_, ?_, ?_, ?_⟩
  · intro reg opt e0 h hh
    unfold resolveExt
    rw [hh]
  · intro reg opt e0 cls f hh hr hf
    unfold resolveExt
    simp only [hh, hr, hf]
  · intro reg opt e0 cls hh hr hf
    unfold resolveExt
    simp only [hh, hr, hf]
  · intro reg opt e0 hh hr
    unfold resolveExt
    simp only [hh, hr]
  · intro reg opt t d rest
    unfold unpack_ext
    rw [show extLen 0xd4 (t :: d :: rest) = .ok (1, t :: d :: rest) from rfl]
    simp only [Bind.bind, Except.bind]
    rw [show readByte (t :: d :: rest) = .ok (t, d :: rest) from rfl]
    simp only
    rw [readF_ok_iff.mpr (⟨rfl, rfl⟩ : ([d] : List Byte).length = 1 ∧ d :: rest = [d] ++ rest)]
    simp only
    cases hres : resolveExt reg opt ⟨sbyte t, [d]⟩ with
    | ok v => simp [Except.map]
    | error e => simp [Except.map]
  · intro reg opt L t payload rest hlen
    unfold unpack_ext
    have h1 : extLen 0xc7 (L :: t :: (payload ++ rest)) =
        .ok (L.val, t :: (payload ++ rest)) := by
      unfold extLen
      rw [show extFixedLen 0xc7 = none from rfl]
      simp only
      rw [if_pos (by decide),
        (@readBE_ok_iff (L :: t :: (payload ++ rest)) (t :: (payload ++ rest)) 1
          L.val).mpr ⟨[L], rfl, rfl, (beU_one L).symm⟩]
    rw [h1]
    simp only [Bind.bind, Except.bind]
    rw [show readByte (t :: (payload ++ rest)) = .ok (t, payload ++ rest) from rfl]
    simp only
    rw [readF_ok_iff.mpr ⟨hlen, rfl⟩]
    simp only
    cases hres : resolveExt reg opt ⟨sbyte t, payload⟩ with
    | ok v => simp [Except.map]
    | error e => simp [Except.map]

/-- Witness for C7: a registry entry for type 5 without unpackb makes
the fixext-1 value fail with NotImplementedError; with an empty
registry the raw Ext object is returned; a per-call handler overrides
the registry. -/
theorem claim_C7_witness :
    resolveExt (fun _ => some ⟨none⟩) opt0 ⟨5, [0x2a]⟩ = .error .NotImplemented ∧
    resolveExt reg0 opt0 ⟨5, [0x2a]⟩ = .ok (.ext 5 [0x2a]) ∧
    resolveExt (fun _ => some ⟨none⟩)
      { opt0 with ext_handlers := [(5, fun e0 => .bin e0.data)] } ⟨5, [0x2a]⟩ =
      .ok (.bin [0x2a]) ∧
    unpack_ext reg0 0xd4 opt0 [0x05, 0x2a] =
      (resolveExt reg0 opt0 ⟨5, [0x2a]⟩).map (fun v => (v, [])) := by
  refine ⟨?_, ?_, ?_, ?_⟩
  · exact claim_C7.2.2.1 (fun _ => some ⟨none⟩) opt0 ⟨5, [0x2a]⟩ ⟨none⟩ rfl rfl rfl
  · exact claim_C7.2.2.2.1 reg0 opt0 ⟨5, [0x2a]⟩ rfl rfl
  · exact claim_C7.1 (fun _ => some ⟨none⟩)
      { opt0 with ext_handlers := [(5, fun e0 => .bin e0.data)] } ⟨5, [0x2a]⟩
      (fun e0 => .bin e0.data) rfl
  · have := claim_C7.2.2.2.2.1 reg0 opt0 0x05 0x2a []
    simpa using this


theorem chunkRead_le (fp : List (List Byte)) (n : Nat) :
    (chunkRead fp n).1.length ≤ n := by
  cases fp with
  | nil => simp [chunkRead]
  | cons c cs =>
    simp only [chunkRead]
    by_cases h : c.length ≤ n
    · rw [if_pos h]
      exact h
    · rw [if_neg h]
      simp

theorem readLoop_exit {n : Nat} (fuel : Nat) (data : List Byte)
    (fp : List (List Byte)) (h : ¬data.length < n) :
    readLoop n fuel data fp = .ok (data, fp) := by
  cases fuel with
  | zero => simp [readLoop, h]
  | succ fuel => simp [readLoop, h]

theorem readLoop_len {n : Nat} : ∀ (fuel : Nat) (data : List Byte)
    (fp : List (List Byte)) (d : List Byte) (f2 : List (List Byte)),
    data.length ≤ n → readLoop n fuel data fp = .ok (d, f2) → d.length = n := by
  intro fuel
  induction fuel with
  | zero =>
    intro data fp d f2 hle h
    by_cases hlt : data.length < n
    · simp [readLoop, hlt] at h
    · simp only [readLoop, if_pos hlt, if_neg hlt, Except.ok.injEq, Prod.mk.injEq] at h
      obtain ⟨rfl, rfl⟩ := h
      omega
  | succ fuel ih =>
    intro data fp d f2 hle h
    by_cases hlt : data.length < n
    · simp only [readLoop, if_pos hlt] at h
      by_cases hc : (chunkRead fp (n - data.length)).1.length = 0
      · simp [hc] at h
      · rw [if_neg hc] at h
        refine ih _ _ _ _ ?_ h
        have := chunkRead_le fp (n - data.length)
        simp only [List.length_append]
        omega
    · rw [readLoop_exit (fuel + 1) data fp hlt] at h
      simp only [Except.ok.injEq, Prod.mk.injEq] at h
      obtain ⟨rfl, rfl⟩ := h
      omega

theorem readLoop_acc {n : Nat} : ∀ (fuel : Nat) (data : List Byte)
    (fp : List (List Byte)), (∀ c ∈ fp, c ≠ []) → data.length ≤ n →
    n ≤ data.length + fp.flatten.length → n - data.length ≤ fuel →
    ∃ f2, readLoop n fuel data fp =
      .ok (data ++ fp.flatten.take (n - data.length), f2) := by
  intro fuel
  induction fuel with
  | zero =>
    intro data fp hall hle hav hfu
    have hex : ¬data.length < n := by omega
    rw [readLoop_exit 0 data fp hex]
    have h0 : n - data.length = 0 := by omega
    rw [h0]
    simp
  | succ fuel ih =>
    intro data fp hall hle hav hfu
    by_cases hlt : data.length < n
    · cases fp with
      | nil =>
        simp at hav
        omega
      | cons c cs =>
        have hc : c ≠ [] := hall c (List.mem_cons_self c cs)
        have hcpos : 0 < c.length := List.length_pos.mpr hc
        simp only [readLoop, if_pos hlt]
        by_cases hcm : c.length ≤ n - data.length
        · have hchunk : chunkRead (c :: cs) (n - data.length) = (c, cs) := by
            simp only [chunkRead]
            rw [if_pos hcm]
          rw [hchunk]
          simp only
          rw [if_neg (by omega)]
          obtain ⟨f2, hrec⟩ := ih (data ++ c) cs
            (fun x hx => hall x (List.mem_cons_of_mem c hx))
            (by simp only [List.length_append]; omega)
            (by simp only [List.length_append, List.flatten_cons] at hav ⊢; omega)
            (by simp only [List.length_append]; omega)
          refine ⟨f2, ?_⟩
          rw [hrec]
          simp only [List.flatten_cons, List.append_assoc, List.length_append,
            Except.ok.injEq, Prod.mk.injEq]
          refine ⟨?_, trivial⟩
          rw [List.take_append_eq_append_take, List.take_of_length_le hcm]
          have : n - data.length - c.length = n - (data.length + c.length) := by omega
          rw [this]
        · have hchunk : chunkRead (c :: cs) (n - data.length) =
              (c.take (n - data.length), c.drop (n - data.length) :: cs) := by
            simp only [chunkRead]
            rw [if_neg hcm]
          rw [hchunk]
          simp only
          rw [if_neg (by
            simp only [List.length_take]
            omega)]
          have hlen2 : (data ++ c.take (n - data.length)).length = n := by
            simp only [List.length_append, List.length_take]
            omega
          rw [readLoop_exit fuel _ _ (by omega)]
          refine ⟨c.drop (n - data.length) :: cs, ?_⟩
          simp only [Except.ok.injEq, Prod.mk.injEq]
          refine ⟨?_, trivial⟩
          rw [List.flatten_cons, List.take_append_of_le_length (by omega)]
    · rw [readLoop_exit (fuel + 1) data fp hlt]
      have h0 : n - data.length = 0 := by omega
      rw [h0]
      simp

/-- C8: over a source that may deliver data in arbitrarily small
chunks, the exact reader returns exactly n bytes by looping and
accumulating partial reads: a read of 0 bytes always succeeds with the
empty byte string without touching the source (first conjunct), every
success returns exactly n bytes (second conjunct), and whenever the
chunks deliver enough bytes the reader succeeds with exactly the first
n bytes of the stream (fifth conjunct).  It fails with
InsufficientDataException when no byte is available before the first
read - exhausted source or empty first read (third conjunct) - and
when a partial first read is followed by an empty read before n bytes
accumulate (fourth conjunct). -/
theorem claim_C8 :
    (∀ fp, read_except fp 0 = .ok ([], fp)) ∧
    (∀ (fp f2 : List (List Byte)) (n : Nat) (d : List Byte),
      read_except fp n = .ok (d, f2) → d.length = n) ∧
    (∀ n, 0 < n → read_except [] n = .error .InsufficientData ∧
      ∀ cs, read_except ([] :: cs) n = .error .InsufficientData) ∧
    (∀ (c : List Byte) (cs : List (List Byte)) (n : Nat),
      0 < c.length → c.length < n →
      read_except (c :: [] :: cs) n = .error .InsufficientData) ∧
    (∀ (fp : List (List Byte)) (n : Nat), (∀ c ∈ fp, c ≠ []) →
      n ≤ fp.flatten.length →
      ∃ f2, read_except fp n = .ok (fp.flatten.take n, f2)) := by
  refine ⟨fun fp => rfl, ?_, ?_, ?_, ?_⟩
  · intro fp f2 n d h
    unfold read_except at h
    by_cases hn : n = 0
    · simp only [hn, if_pos rfl, Except.ok.injEq, Prod.mk.injEq] at h
      obtain ⟨rfl, rfl⟩ := h
      simp [hn]
    · rw [if_neg hn] at h
      by_cases hc : (chunkRead fp n).1.length = 0
      · simp [hc] at h
      · rw [if_neg hc] at h
        exact readLoop_len n _ _ _ _ (chunkRead_le fp n) h
  · intro n hn
    constructor
    · unfold read_except
      rw [if_neg (by omega)]
      simp [chunkRead]
    · intro cs
      unfold read_except
      rw [if_neg (by omega)]
      have : chunkRead ([] :: cs) n = ([], cs) := by
        simp [chunkRead]
      rw [this]
      simp
  · intro c cs n hc hlt
    unfold read_except
    rw [if_neg (by omega)]
    have h1 : chunkRead (c :: [] :: cs) n = (c, [] :: cs) := by
      simp only [chunkRead]
      rw [if_pos (by omega)]
    rw [h1]
    simp only
    rw [if_neg (by omega)]
    obtain ⟨m, rfl⟩ : ∃ m, n = m + 1 := ⟨n - 1, by omega⟩
    simp only [readLoop, if_pos hlt]
    have h2 : chunkRead ([] :: cs) (m + 1 - c.length) = ([], cs) := by
      simp [chunkRead]
    rw [h2]
    simp
  · intro fp n hall hav
    by_cases hn : n = 0
    · subst hn
      exact ⟨fp, by simp [read_except]⟩
    · unfold read_except
      rw [if_neg hn]
      cases fp with
      | nil =>
        simp at hav
        omega
      | cons c cs =>
        have hc : c ≠ [] := hall c (List.mem_cons_self c cs)
        have hcpos : 0 < c.length := List.length_pos.mpr hc
        by_cases hcm : c.length ≤ n
        · have h1 : chunkRead (c :: cs) n = (c, cs) := by
            simp only [chunkRead]
            rw [if_pos hcm]
          rw [h1]
          simp only
          rw [if_neg (by omega)]
          obtain ⟨f2, hrec⟩ := readLoop_acc n c cs
            (fun x hx => hall x (List.mem_cons_of_mem c hx))
            hcm
            (by simp only [List.flatten_cons, List.length_append] at hav ⊢; omega)
            (by omega)
          refine ⟨f2, ?_⟩
          rw [hrec]
          simp only [List.flatten_cons, Except.ok.injEq, Prod.mk.injEq]
          refine ⟨?_, trivial⟩
          rw [List.take_append_eq_append_take, List.take_of_length_le hcm]
        · have h1 : chunkRead (c :: cs) n =
              (c.take n, c.drop n :: cs) := by
            simp only [chunkRead]
            rw [if_neg hcm]
          rw [h1]
          simp only
          rw [if_neg (by
            simp only [List.length_take]
            omega)]
          rw [readLoop_exit n _ _ (by
            simp only [List.length_take]
            omega)]
          refine ⟨c.drop n :: cs, ?_⟩
          simp only [List.flatten_cons, Except.ok.injEq, Prod.mk.injEq]
          refine ⟨?_, trivial⟩
          rw [List.take_append_of_le_length (by omega)]

/-- Witness for C8: two bytes delivered one chunk each accumulate into
an exact two-byte read; a one-byte chunk followed by an empty read
fails with InsufficientDataException. -/
theorem claim_C8_witness :
    (∃ f2, read_except [[0x01], [0x02]] 2 =
      .ok (([[0x01], [0x02]] : List (List Byte)).flatten.take 2, f2)) ∧
    read_except [[0x01], [], [0x02]] 2 = .error .InsufficientData := by
  constructor
  · exact claim_C8.2.2.2.2 [[0x01], [0x02]] 2 (by decide) (by decide)
  · exact claim_C8.2.2.2.1 [0x01] [[0x02]] 2 (by decide) (by decide)


/-- The two embeddings of _read_except agree: over the single-chunk
source that loads actually builds (a BytesIO delivers all remaining
bytes at once), the chunked reader returns the same bytes and leaves
the same remaining bytes as the flat reader readF used by the
decoder. -/
theorem read_except_single (l : List Byte) (n : Nat) :
    (read_except [l] n).map (fun p => (p.1, p.2.flatten)) =
      (readF n l).map (fun p => p) := by
  by_cases hn : n = 0
  · subst hn
    simp [read_except, readF, Except.map]
  · unfold read_except
    rw [if_neg hn]
    by_cases hle : l.length ≤ n
    · have h1 : chunkRead [l] n = (l, []) := by
        simp only [chunkRead]
        rw [if_pos hle]
      rw [h1]
      simp only
      by_cases h0 : l.length = 0
      · rw [if_pos h0]
        have hl : l = [] := List.length_eq_zero.mp h0
        subst hl
        rw [readF_err_iff.mpr ⟨rfl, by omega⟩]
        simp [Except.map]
      · rw [if_neg h0]
        by_cases hlt : l.length < n
        · obtain ⟨m, rfl⟩ : ∃ m, n = m + 1 := ⟨n - 1, by omega⟩
          simp only [readLoop, if_pos hlt]
          have h2 : chunkRead [] (m + 1 - l.length) = ([], []) := by
            simp [chunkRead]
          rw [h2]
          simp only [List.length_nil, if_pos rfl]
          rw [readF_err_iff.mpr ⟨rfl, hlt⟩]
          simp [Except.map]
        · rw [readLoop_exit n l [] hlt]
          have hlen : l.length = n := by omega
          rw [show readF n l = .ok (l, []) from
            readF_ok_iff.mpr ⟨hlen, by simp⟩]
          simp [Except.map]
    · have h1 : chunkRead [l] n = (l.take n, [l.drop n]) := by
        simp only [chunkRead]
        rw [if_neg hle]
      rw [h1]
      simp only
      rw [if_neg (by
        simp only [List.length_take]
        omega)]
      rw [readLoop_exit n _ _ (by
        simp only [List.length_take]
        omega)]
      rw [show readF n l = .ok (l.take n, l.drop n) from
        readF_ok_iff.mpr ⟨by simp [List.length_take]; omega, by simp⟩]
      simp [Except.map]


/-- Witness for C1: the table agreement at the reserved byte, the
impossibility of the logic error on a concrete malformed input, and
the reserved-code failure on the one-byte buffer 0xc1. -/
theorem claim_C1_witness :
    dispatch (0xc1 : Byte).val = specRoute (0xc1 : Byte).val ∧
    load reg0 1 opt0 [0xc1] ≠ .error .LogicError ∧
    load reg0 1 opt0 [0xc1] = .error .ReservedCode :=
  ⟨claim_C1.1 0xc1, claim_C1.2.1 reg0 1 opt0 [0xc1], claim_C1.2.2.1 reg0 0 opt0 []⟩


theorem unpack_integer_noOOF (c : Byte) :
    ∀ fp e, unpack_integer c fp = .error e → e ≠ .OutOfFuel := by
  intro fp e h
  unfold unpack_integer at h
  by_cases h1 : c.val &&& 0xe0 = 0xe0
  · simp [h1] at h
  · by_cases h2 : c.val &&& 0x80 = 0
    · simp [h1, h2] at h
    · by_cases h3 : 0xcc ≤ c.val ∧ c.val ≤ 0xd3
      · rw [if_neg h1, if_neg h2, if_pos h3] at h
        cases h4 : readF (1 <<< ((c.val - 0xcc) &&& 3)) fp with
        | error e2 =>
          rw [h4] at h
          simp only [Bind.bind, Except.bind, Except.error.injEq] at h
          subst h
          rw [(readF_err_iff.mp h4).1]
          simp
        | ok p =>
          rw [h4] at h
          obtain ⟨bs, fp1⟩ := p
          simp [Bind.bind, Except.bind] at h
      · rw [if_neg h1, if_neg h2, if_neg h3] at h
        simp only [Except.error.injEq] at h
        subst h
        simp

theorem unpack_float_noOOF (c : Byte) :
    ∀ fp e, unpack_float c fp = .error e → e ≠ .OutOfFuel := by
  intro fp e h
  unfold unpack_float at h
  by_cases h1 : c.val = 0xca
  · rw [if_pos h1] at h
    cases h4 : readF 4 fp with
    | error e2 =>
      rw [h4] at h
      simp only [Bind.bind, Except.bind, Except.error.injEq] at h
      subst h
      rw [(readF_err_iff.mp h4).1]
      simp
    | ok p =>
      rw [h4] at h
      obtain ⟨bs, fp1⟩ := p
      simp [Bind.bind, Except.bind] at h
  · by_cases h2 : c.val = 0xcb
    · rw [if_neg h1, if_pos h2] at h
      cases h4 : readF 8 fp with
      | error e2 =>
        rw [h4] at h
        simp only [Bind.bind, Except.bind, Except.error.injEq] at h
        subst h
        rw [(readF_err_iff.mp h4).1]
        simp
      | ok p =>
        rw [h4] at h
        obtain ⟨bs, fp1⟩ := p
        simp [Bind.bind, Except.bind] at h
    · rw [if_neg h1, if_neg h2] at h
      simp only [Except.error.injEq] at h
      subst h
      simp

theorem strLen_noOOF (c : Byte) :
    ∀ fp e, strLen c fp = .error e → e ≠ .OutOfFuel := by
  intro fp e h
  unfold strLen at h
  by_cases h1 : c.val &&& 0xe0 = 0xa0
  · simp [h1] at h
  · by_cases h2 : c.val = 0xd9
    · rw [if_neg h1, if_pos h2] at h
      rw [(readBE_err_iff.mp h).1]
      simp
    · by_cases h3 : c.val = 0xda
      · rw [if_neg h1, if_neg h2, if_pos h3] at h
        rw [(readBE_err_iff.mp h).1]
        simp
      · by_cases h4 : c.val = 0xdb
        · rw [if_neg h1, if_neg h2, if_neg h3, if_pos h4] at h
          rw [(readBE_err_iff.mp h).1]
          simp
        · rw [if_neg h1, if_neg h2, if_neg h3, if_neg h4] at h
          simp only [Except.error.injEq] at h
          subst h
          simp

theorem binLen_noOOF (c : Byte) :
    ∀ fp e, binLen c fp = .error e → e ≠ .OutOfFuel := by
  intro fp e h
  unfold binLen at h
  by_cases h1 : c.val = 0xc4
  · rw [if_pos h1] at h
    rw [(readBE_err_iff.mp h).1]
    simp
  · by_cases h2 : c.val = 0xc5
    · rw [if_neg h1, if_pos h2] at h
      rw [(readBE_err_iff.mp h).1]
      simp
    · by_cases h3 : c.val = 0xc6
      · rw [if_neg h1, if_neg h2, if_pos h3] at h
        rw [(readBE_err_iff.mp h).1]
        simp
      · rw [if_neg h1, if_neg h2, if_neg h3] at h
        simp only [Except.error.injEq] at h
        subst h
        simp

theorem extLen_noOOF (c : Byte) :
    ∀ fp e, extLen c fp = .error e → e ≠ .OutOfFuel := by
  intro fp e h
  unfold extLen at h
  cases hf : extFixedLen c with
  | some n =>
    rw [hf] at h
    simp at h
  | none =>
    rw [hf] at h
    by_cases h1 : c.val = 0xc7
    · rw [if_pos h1] at h
      rw [(readBE_err_iff.mp h).1]
      simp
    · by_cases h2 : c.val = 0xc8
      · rw [if_neg h1, if_pos h2] at h
        rw [(readBE_err_iff.mp h).1]
        simp
      · by_cases h3 : c.val = 0xc9
        · rw [if_neg h1, if_neg h2, if_pos h3] at h
          rw [(readBE_err_iff.mp h).1]
          simp
        · rw [if_neg h1, if_neg h2, if_neg h3] at h
          simp only [Except.error.injEq] at h
          subst h
          simp

theorem arrLen_noOOF (c : Byte) :
    ∀ fp e, arrLen c fp = .error e → e ≠ .OutOfFuel := by
  intro fp e h
  unfold arrLen at h
  by_cases h1 : c.val &&& 0xf0 = 0x90
  · simp [h1] at h
  · by_cases h2 : c.val = 0xdc
    · rw [if_neg h1, if_pos h2] at h
      rw [(readBE_err_iff.mp h).1]
      simp
    · by_cases h3 : c.val = 0xdd
      · rw [if_neg h1, if_neg h2, if_pos h3] at h
        rw [(readBE_err_iff.mp h).1]
        simp
      · rw [if_neg h1, if_neg h2, if_neg h3] at h
        simp only [Except.error.injEq] at h
        subst h
        simp

theorem mapLen_noOOF (c : Byte) :
    ∀ fp e, mapLen c fp = .error e → e ≠ .OutOfFuel := by
  intro fp e h
  unfold mapLen at h
  by_cases h1 : c.val &&& 0xf0 = 0x80
  · simp [h1] at h
  · by_cases h2 : c.val = 0xde
    · rw [if_neg h1, if_pos h2] at h
      rw [(readBE_err_iff.mp h).1]
      simp
    · by_cases h3 : c.val = 0xdf
      · rw [if_neg h1, if_neg h2, if_pos h3] at h
        rw [(readBE_err_iff.mp h).1]
        simp
      · rw [if_neg h1, if_neg h2, if_neg h3] at h
        simp only [Except.error.injEq] at h
        subst h
        simp

theorem unpack_string_noOOF (c : Byte) (opt : Options) :
    ∀ fp e, unpack_string c opt fp = .error e → e ≠ .OutOfFuel := by
  intro fp e h
  unfold unpack_string at h
  cases h1 : strLen c fp with
  | error e2 =>
    rw [h1] at h
    simp only [Bind.bind, Except.bind, Except.error.injEq] at h
    subst h
    exact strLen_noOOF c fp e2 h1
  | ok p =>
    obtain ⟨n, fp1⟩ := p
    rw [h1] at h
    simp only [Bind.bind, Except.bind] at h
    cases h2 : readF n fp1 with
    | error e2 =>
      rw [h2] at h
      simp only [Except.error.injEq] at h
      subst h
      rw [(readF_err_iff.mp h2).1]
      simp
    | ok p2 =>
      obtain ⟨data, fp2⟩ := p2
      rw [h2] at h
      simp only at h
      cases hu : utf8Decode data with
      | some cps =>
        rw [hu] at h
        simp at h
      | none =>
        rw [hu] at h
        simp only at h
        by_cases ha : opt.allow_invalid_utf8
        · rw [if_pos ha] at h
          simp at h
        · rw [if_neg ha] at h
          simp only [Except.error.injEq] at h
          subst h
          simp

theorem unpack_binary_noOOF (c : Byte) :
    ∀ fp e, unpack_binary c fp = .error e → e ≠ .OutOfFuel := by
  intro fp e h
  unfold unpack_binary at h
  cases h1 : binLen c fp with
  | error e2 =>
    rw [h1] at h
    simp only [Bind.bind, Except.bind, Except.error.injEq] at h
    subst h
    exact binLen_noOOF c fp e2 h1
  | ok p =>
    obtain ⟨n, fp1⟩ := p
    rw [h1] at h
    simp only [Bind.bind, Except.bind] at h
    cases h2 : readF n fp1 with
    | error e2 =>
      rw [h2] at h
      simp only [Except.error.injEq] at h
      subst h
      rw [(readF_err_iff.mp h2).1]
      simp
    | ok p2 =>
      obtain ⟨data, fp2⟩ := p2
      rw [h2] at h
      simp at h

theorem unpack_ext_noOOF (reg : Registry) (c : Byte) (opt : Options) :
    ∀ fp e, unpack_ext reg c opt fp = .error e → e ≠ .OutOfFuel := by
  intro fp e h
  unfold unpack_ext at h
  cases h1 : extLen c fp with
  | error e2 =>
    rw [h1] at h
    simp only [Bind.bind, Except.bind, Except.error.injEq] at h
    subst h
    exact extLen_noOOF c fp e2 h1
  | ok p =>
    obtain ⟨n, fp1⟩ := p
    rw [h1] at h
    simp only [Bind.bind, Except.bind] at h
    cases h2 : readByte fp1 with
    | error e2 =>
      rw [h2] at h
      simp only [Except.error.injEq] at h
      subst h
      rw [(readByte_err_iff.mp h2).1]
      simp
    | ok p2 =>
      obtain ⟨tb, fp2⟩ := p2
      rw [h2] at h
      simp only at h
      cases h3 : readF n fp2 with
      | error e2 =>
        rw [h3] at h
        simp only [Except.error.injEq] at h
        subst h
        rw [(readF_err_iff.mp h3).1]
        simp
      | ok p3 =>
        obtain ⟨extData, fp3⟩ := p3
        rw [h3] at h
        simp only at h
        cases hres : resolveExt reg opt ⟨sbyte tb, extData⟩ with
        | ok v2 =>
          rw [hres] at h
          simp at h
        | error e2 =>
          rw [hres] at h
          simp only [Except.error.injEq] at h
          subst h
          rw [resolveExt_err hres]
          simp

theorem seqDecode_noOOF {dec : List Byte → Except Err (Value × List Byte)} {F : Nat}
    (hdecS : StepOk dec)
    (hdec : ∀ s, s.length < F → ∀ e, dec s = .error e → e ≠ .OutOfFuel) :
    ∀ n fp, fp.length < F → ∀ e, seqDecode dec n fp = .error e → e ≠ .OutOfFuel := by
  intro n
  induction n with
  | zero =>
    intro fp hb e h
    simp [seqDecode] at h
  | succ n ih =>
    intro fp hb e h
    simp only [seqDecode] at h
    cases h1 : dec fp with
    | error e2 =>
      rw [h1] at h
      simp only [Bind.bind, Except.bind, Except.error.injEq] at h
      subst h
      exact hdec fp hb e2 h1
    | ok p =>
      obtain ⟨v, fp1⟩ := p
      rw [h1] at h
      simp only [Bind.bind, Except.bind] at h
      cases h2 : seqDecode dec n fp1 with
      | error e2 =>
        rw [h2] at h
        simp only [Except.error.injEq] at h
        subst h
        obtain ⟨u, hu, -⟩ := hdecS fp v fp1 h1
        refine ih fp1 ?_ e2 h2
        have := congrArg List.length hu
        simp only [List.length_append] at this
        omega
      | ok p2 =>
        obtain ⟨vs, fp2⟩ := p2
        rw [h2] at h
        simp at h

theorem mapDecode_noOOF {dec : List Byte → Except Err (Value × List Byte)} {F : Nat}
    (hdecS : StepOk dec)
    (hdec : ∀ s, s.length < F → ∀ e, dec s = .error e → e ≠ .OutOfFuel) :
    ∀ n d fp, fp.length < F → ∀ e, mapDecode dec n d fp = .error e →
      e ≠ .OutOfFuel := by
  intro n
  induction n with
  | zero =>
    intro d fp hb e h
    simp [mapDecode] at h
  | succ n ih =>
    intro d fp hb e h
    simp only [mapDecode] at h
    cases h1 : dec fp with
    | error e2 =>
      rw [h1] at h
      simp only [Bind.bind, Except.bind, Except.error.injEq] at h
      subst h
      exact hdec fp hb e2 h1
    | ok p =>
      obtain ⟨k0, fp1⟩ := p
      rw [h1] at h
      simp only [Bind.bind, Except.bind] at h
      obtain ⟨u1, hu1, -⟩ := hdecS fp k0 fp1 h1
      have hb1 : fp1.length < F := by
        have := congrArg List.length hu1
        simp only [List.length_append] at this
        omega
      by_cases hh : hashable (normKey k0)
      · rw [if_pos hh] at h
        by_cases hc : containsK d (normKey k0)
        · rw [if_pos hc] at h
          simp only [Except.error.injEq] at h
          subst h
          simp
        · rw [if_neg hc] at h
          cases h2 : dec fp1 with
          | error e2 =>
            rw [h2] at h
            simp only [Bind.bind, Except.bind, Except.error.injEq] at h
            subst h
            exact hdec fp1 hb1 e2 h2
          | ok p2 =>
            obtain ⟨v, fp2⟩ := p2
            rw [h2] at h
            simp only [Bind.bind, Except.bind] at h
            rw [if_pos hh] at h
            obtain ⟨u2, hu2, -⟩ := hdecS fp1 v fp2 h2
            refine ih (d ++ [(normKey k0, v)]) fp2 ?_ e h
            have := congrArg List.length hu2
            simp only [List.length_append] at this
            omega
      · rw [if_neg hh] at h
        simp only [Except.error.injEq] at h
        subst h
        simp

/-- At any fuel exceeding the number of remaining bytes the decoder
never exhausts its fuel: every tag byte is consumed before recursing,
so the recursion depth is bounded by the buffer length. -/
theorem load_noOOF (reg : Registry) : ∀ f opt fp, fp.length < f →
    ∀ e, load reg f opt fp = .error e → e ≠ .OutOfFuel := by
  intro f
  induction f with
  | zero =>
    intro opt fp hb
    omega
  | succ f ih =>
    intro opt fp hb e h
    simp only [load] at h
    cases h1 : readByte fp with
    | error e2 =>
      rw [h1] at h
      simp only [Bind.bind, Except.bind, Except.error.injEq] at h
      subst h
      rw [(readByte_err_iff.mp h1).1]
      simp
    | ok p =>
      obtain ⟨code, fp1⟩ := p
      rw [h1] at h
      simp only [Bind.bind, Except.bind] at h
      obtain rfl := readByte_ok_iff.mp h1
      have hb1 : fp1.length < f := by
        simp only [List.length_cons] at hb
        omega
      cases hd : dispatch code.val with
      | integer =>
        rw [hd] at h
        exact unpack_integer_noOOF code fp1 e h
      | float =>
        rw [hd] at h
        exact unpack_float_noOOF code fp1 e h
      | string =>
        rw [hd] at h
        exact unpack_string_noOOF code opt fp1 e h
      | binary =>
        rw [hd] at h
        exact unpack_binary_noOOF code fp1 e h
      | ext =>
        rw [hd] at h
        exact unpack_ext_noOOF reg code opt fp1 e h
      | array =>
        rw [hd] at h
        unfold unpack_array at h
        cases h2 : arrLen code fp1 with
        | error e2 =>
          rw [h2] at h
          simp only [Bind.bind, Except.bind, Except.error.injEq] at h
          subst h
          exact arrLen_noOOF code fp1 e2 h2
        | ok p2 =>
          obtain ⟨n, fp2⟩ := p2
          rw [h2] at h
          simp only [Bind.bind, Except.bind] at h
          cases h3 : seqDecode (load reg f opt) n fp2 with
          | error e2 =>
            rw [h3] at h
            simp only [Except.error.injEq] at h
            subst h
            obtain ⟨u, hu, -⟩ := arrLen_stepOk code fp1 n fp2 h2
            refine seqDecode_noOOF (load_stepOk reg f opt)
              (fun s hs e3 h3b => ih opt s hs e3 h3b) n fp2 ?_ e2 h3
            have := congrArg List.length hu
            simp only [List.length_append] at this
            omega
          | ok p3 =>
            obtain ⟨vs, fp3⟩ := p3
            rw [h3] at h
            simp at h
      | mp =>
        rw [hd] at h
        unfold unpack_map at h
        cases h2 : mapLen code fp1 with
        | error e2 =>
          rw [h2] at h
          simp only [Bind.bind, Except.bind, Except.error.injEq] at h
          subst h
          exact mapLen_noOOF code fp1 e2 h2
        | ok p2 =>
          obtain ⟨n, fp2⟩ := p2
          rw [h2] at h
          simp only [Bind.bind, Except.bind] at h
          cases h3 : mapDecode (load reg f opt) n [] fp2 with
          | error e2 =>
            rw [h3] at h
            simp only [Except.error.injEq] at h
            subst h
            obtain ⟨u, hu, -⟩ := mapLen_stepOk code fp1 n fp2 h2
            refine mapDecode_noOOF (load_stepOk reg f opt)
              (fun s hs e3 h3b => ih opt s hs e3 h3b) n [] fp2 ?_ e2 h3
            have := congrArg List.length hu
            simp only [List.length_append] at this
            omega
          | ok p3 =>
            obtain ⟨d, fp3⟩ := p3
            rw [h3] at h
            simp at h
      | reserved =>
        rw [hd] at h
        simp only [Except.error.injEq] at h
        subst h
        simp
      | direct i =>
        rw [hd] at h
        simp at h

/-- The top-level entry point never sees the artificial fuel
exhaustion: its fuel is the buffer length plus one. -/
theorem loads_noOOF (reg : Registry) (s : List Byte) (opt : Options) :
    loads reg s opt ≠ .error .OutOfFuel := by
  intro h
  unfold loads at h
  cases hl : load reg (s.length + 1) opt s with
  | ok p =>
    rw [hl] at h
    simp [Except.map] at h
  | error e =>
    rw [hl] at h
    simp only [Except.map, Except.error.injEq] at h
    subst h
    exact load_noOOF reg (s.length + 1) opt s (by omega) _ hl rfl

/-- The chunked reader loop never exhausts its fuel while at least the
missing byte count remains: every iteration appends at least one
byte. -/
theorem readLoop_noOOF {n : Nat} : ∀ (fuel : Nat) (data : List Byte)
    (fp : List (List Byte)), n - data.length ≤ fuel →
    readLoop n fuel data fp ≠ .error .OutOfFuel := by
  intro fuel
  induction fuel with
  | zero =>
    intro data fp hfu h
    rw [readLoop_exit 0 data fp (by omega)] at h
    simp at h
  | succ fuel ih =>
    intro data fp hfu h
    by_cases hlt : data.length < n
    · simp only [readLoop, if_pos hlt] at h
      by_cases hc : (chunkRead fp (n - data.length)).1.length = 0
      · rw [if_pos hc] at h
        simp at h
      · rw [if_neg hc] at h
        refine ih _ _ ?_ h
        simp only [List.length_append]
        omega
    · rw [readLoop_exit (fuel + 1) data fp hlt] at h
      simp at h

/-- The chunked reader itself never reports fuel exhaustion. -/
theorem read_except_noOOF (fp : List (List Byte)) (n : Nat) :
    read_except fp n ≠ .error .OutOfFuel := by
  intro h
  unfold read_except at h
  by_cases hn : n = 0
  · simp [hn] at h
  · rw [if_neg hn] at h
    by_cases hc : (chunkRead fp n).1.length = 0
    · rw [if_pos hc] at h
      simp at h
    · rw [if_neg hc] at h
      exact readLoop_noOOF n _ _ (by omega) h

end UMsgpack
